import Mathlib

/-!
Verification development for the ClarityScript compiler (an
indentation-sensitive markup-to-HTML compiler written in Python).

The development shallow-embeds the three pipeline stages:
  * `clarity_lexer.py`  — `Lexer.tokenize` and its helpers,
  * `clarity_parser.py` — `Parser.parse` and its helpers,
  * `clarity_compiler.py` — `Compiler.compile` and its helpers,
and proves properties of the embedded definitions.

Modelling conventions:
  * Python strings are Lean `String`s; the lexer walks an `Array Char`
    with a `position` counter, exactly as the Python walks `self.source`.
  * Python character predicates (`isspace`, `isalnum`, ...) are modelled
    for the ASCII range the language uses.
  * Every Python `while` loop becomes a Lean recursion over an explicit
    fuel counter; call sites pass a fuel that strictly exceeds the number
    of iterations the loop can perform (each iteration advances the
    position by at least one), so the fuel never runs out there.
  * Python `raise` becomes `Except.error`; Python print-logged warnings
    of the compiler are accumulated in a `warnings` field; the parser's
    print-logged error messages produce no observable state and are not
    recorded.
  * Python dicts are insertion-ordered association lists: assignment
    (`dictSet`) updates in place or appends, `del` removes the key.
  * The compiler's recursion through component bodies is genuinely
    unbounded (a component body may use the component itself), so the
    code generator is fuel-indexed; `none` models a run that exceeds the
    given recursion budget.
  * Python's `eval` of condition strings is an external primitive, not
    repository code; the generator is parameterized by an oracle
    `EvalOracle` mapping the substituted condition text to `some b`
    (truthiness of the evaluated value) or `none` (the evaluation threw).
-/

/-! ## Python-style character and string helpers -/

/-- Python `str.isspace` restricted to the ASCII whitespace characters. -/
def pyIsSpace (c : Char) : Bool :=
  c = ' ' ∨ c = '\t' ∨ c = '\n' ∨ c = '\r' ∨ c = '\x0b' ∨ c = '\x0c'

/-- Python `str.isalpha` on the ASCII range. -/
def pyIsAlpha (c : Char) : Bool :=
  ('a' ≤ c ∧ c ≤ 'z') ∨ ('A' ≤ c ∧ c ≤ 'Z')

/-- Python `str.isdigit` on the ASCII range. -/
def pyIsDigit (c : Char) : Bool :=
  '0' ≤ c ∧ c ≤ '9'

/-- Python `str.isalnum` on the ASCII range. -/
def pyIsAlnum (c : Char) : Bool :=
  pyIsAlpha c || pyIsDigit c

/-- A regex `\w` word character: alphanumeric or underscore. -/
def isWordChar (c : Char) : Bool :=
  pyIsAlnum c || c = '_'

/-- Strip `pyIsSpace` characters from both ends of a character list. -/
def pyStripList (l : List Char) : List Char :=
  ((l.dropWhile pyIsSpace).reverse.dropWhile pyIsSpace).reverse

/-- Python `str.strip()`. -/
def pyStrip (s : String) : String :=
  String.mk (pyStripList s.data)

/-- Python `str.startswith`. -/
def pyStartsWith (s pat : String) : Bool :=
  pat.data.isPrefixOf s.data

/-- Python `str.endswith`. -/
def pyEndsWith (s pat : String) : Bool :=
  pat.data.reverse.isPrefixOf s.data.reverse

/-- Substring containment on character lists (Python `pat in s`). -/
def containsSub : List Char → List Char → Bool
  | l, pat =>
    if pat.isPrefixOf l then true
    else
      match l with
      | [] => false
      | _ :: rest => containsSub rest pat

/-- Python `pat in s` for strings. -/
def pyContains (s pat : String) : Bool :=
  containsSub s.data pat.data

/-- One step per character: replace every non-overlapping occurrence of
`pat` (nonempty in all uses) by `rep`, left to right, as Python
`str.replace`.  The fuel is the length of the scanned list. -/
def replaceFuel : Nat → List Char → List Char → List Char → List Char
  | 0, l, _, _ => l
  | fuel + 1, l, pat, rep =>
    if pat ≠ [] ∧ pat.isPrefixOf l then
      rep ++ replaceFuel fuel (l.drop pat.length) pat rep
    else
      match l with
      | [] => []
      | c :: rest => c :: replaceFuel fuel rest pat rep

/-- Python `s.replace(pat, rep)` (replace all occurrences). -/
def pyReplace (s pat rep : String) : String :=
  String.mk (replaceFuel s.data.length s.data pat.data rep.data)

/-- Python `s[1:-1]`: drop the first and last character. -/
def strInner (s : String) : String :=
  String.mk ((s.data.drop 1).dropLast)

/-- Python `s.split(c)` for a single-character separator (keeps empties). -/
def splitChar (c : Char) : List Char → List (List Char)
  | [] => [[]]
  | x :: rest =>
    match splitChar c rest with
    | [] => [[]]
    | cur :: others => if x = c then [] :: cur :: others else (x :: cur) :: others

/-- Python `s.split(c, 1)`: split at the first occurrence of `c`, if any. -/
def splitFirst (c : Char) : List Char → Option (List Char × List Char)
  | [] => none
  | x :: rest =>
    if x = c then some ([], rest)
    else (splitFirst c rest).map (fun p => (x :: p.1, p.2))

/-- First index at which `pat` occurs in `l` (Python `str.find`, found case). -/
def findSub : List Char → List Char → Option Nat
  | l, pat =>
    if pat.isPrefixOf l then some 0
    else
      match l with
      | [] => none
      | _ :: rest => (findSub rest pat).map (· + 1)

/-- Last index at which `pat` occurs, offset by `i` (helper for `rfindSub`). -/
def rfindAux (pat : List Char) : List Char → Nat → Option Nat
  | l, i =>
    let here : Option Nat := if pat.isPrefixOf l then some i else none
    match l with
    | [] => here
    | _ :: rest =>
      match rfindAux pat rest (i + 1) with
      | some j => some j
      | none => here

/-- Last index at which `pat` occurs in `l` (Python `str.rfind`, found case). -/
def rfindSub (l pat : List Char) : Option Nat :=
  rfindAux pat l 0

/-- Python `s[a:b]` for `0 ≤ a, b` (both clamped). -/
def pySliceList (l : List Char) (a b : Nat) : List Char :=
  (l.take b).drop a

/-- A run of `n` spaces (Python `' ' * n`). -/
def indentStr (n : Nat) : String :=
  String.mk (List.replicate n ' ')

/-- Python `'\n'.join`. -/
def joinNL : List String → String
  | [] => ""
  | [x] => x
  | x :: rest => x ++ "\n" ++ joinNL rest

/-- Python `' '.join`. -/
def joinSpace : List String → String
  | [] => ""
  | [x] => x
  | x :: rest => x ++ " " ++ joinSpace rest

/-! ## Insertion-ordered dictionaries (Python `dict`)

A Python dict is modelled as a key-unique association list in insertion
order; the operations below preserve that invariant. -/

/-- Python `d[k] = v`: update in place if the key exists, else append. -/
def dictSet {α : Type} : List (String × α) → String → α → List (String × α)
  | [], k, v => [(k, v)]
  | p :: rest, k, v =>
    if p.1 = k then (k, v) :: rest else p :: dictSet rest k v

/-- Python `d.get(k)` / `d[k]` lookup. -/
def dictGet {α : Type} : List (String × α) → String → Option α
  | [], _ => none
  | p :: rest, k => if p.1 = k then some p.2 else dictGet rest k

/-- Python `k in d`. -/
def dictMem {α : Type} : List (String × α) → String → Bool
  | [], _ => false
  | p :: rest, k => p.1 = k || dictMem rest k

/-- Python `del d[k]`. -/
def dictDel {α : Type} : List (String × α) → String → List (String × α)
  | [], _ => []
  | p :: rest, k => if p.1 = k then dictDel rest k else p :: dictDel rest k

/-! ## Tokens (`clarity_lexer.py`, `TokenType` and `Token`) -/

inductive TokenType where
  | ELEMENT
  | ATTRIBUTE
  | CONTENT
  | VARIABLE_DECL
  | VARIABLE_REF
  | COLON
  | STRING
  | FOR_LOOP
  | IF_STATEMENT
  | ELSE_STATEMENT
  | COMPONENT_DEF
  | COMPONENT_USE
  | COMMENT
  | NEWLINE
  | INDENT
  | DEDENT
  | EOF
  | MULTILINE_STRING
  deriving DecidableEq, Repr

structure Token where
  type : TokenType
  value : String
  line : Nat
  column : Nat
  deriving DecidableEq, Repr

/-- The lexer's fatal errors (`raise SyntaxError` sites), plus `fuelOut`,
the artifact of the fuel-indexed main loop (proved unreachable below). -/
inductive LexError where
  | unterminatedString
  | unterminatedMultiline
  | inconsistentIndent
  | expectedEq
  | fuelOut
  deriving DecidableEq, Repr

/-! ## Lexer state and scanning loops -/

structure LexState where
  source : Array Char
  position : Nat
  line : Nat
  column : Nat
  /-- `self.indent_stack`, with the Python list's end (top) at the head. -/
  indentStack : List Nat
  tokens : List Token
  deriving Repr

/-- Guarded character access (every use is within bounds in the Python). -/
def charAt (s : Array Char) (i : Nat) : Char :=
  s.getD i ' '

/-- Python slice comparison `source[i:i+len(pat)] == pat`. -/
def matchAt (s : Array Char) (i : Nat) (pat : List Char) : Bool :=
  (s.extract i (i + pat.length)).toList = pat

/-- Python `source[a:b]` as a string. -/
def sliceStr (s : Array Char) (a b : Nat) : String :=
  String.mk (s.extract a b).toList

/-- A `while position < len and p(source[position]): advance()` loop;
returns the final position.  Fuel at call sites is `size + 1`. -/
def skipWhile (p : Char → Bool) (s : Array Char) : Nat → Nat → Nat
  | 0, pos => pos
  | fuel + 1, pos =>
    if pos < s.size then
      if p (charAt s pos) then skipWhile p s fuel (pos + 1) else pos
    else pos

/-- `n` consecutive `self._advance()` calls from `st` to position `newPos`. -/
def advanceTo (st : LexState) (newPos : Nat) : LexState :=
  { st with position := newPos, column := st.column + (newPos - st.position) }

/-- The closing-quote search loop of `Lexer._tokenize_string`; threads the
line/column updates the loop performs; `none` means unterminated. -/
def scanStringEnd (s : Array Char) (q : Char) :
    Nat → Nat → Nat → Nat → Option (Nat × Nat × Nat)
  | 0, _, _, _ => none
  | fuel + 1, pos, line, col =>
    if pos < s.size then
      if charAt s pos = q ∧ (pos = 0 ∨ charAt s (pos - 1) ≠ '\\') then
        some (pos, line, col)
      else
        if charAt s pos = '\n' then scanStringEnd s q fuel (pos + 1) (line + 1) 2
        else scanStringEnd s q fuel (pos + 1) line (col + 1)
    else none

/-- The closing-delimiter search loop of `Lexer._tokenize_multiline_string`. -/
def scanTripleEnd (s : Array Char) :
    Nat → Nat → Nat → Nat → Option (Nat × Nat × Nat)
  | 0, _, _, _ => none
  | fuel + 1, pos, line, col =>
    if pos < s.size - 2 then
      if matchAt s pos ['"', '"', '"'] then some (pos, line, col)
      else
        if charAt s pos = '\n' then scanTripleEnd s fuel (pos + 1) (line + 1) 2
        else scanTripleEnd s fuel (pos + 1) line (col + 1)
    else none

/-! ## Lexer helpers (one per Python method) -/

/-- Position after the name-then-whitespace scan shared (character for
character) by `_is_variable_declaration` and
`_tokenize_variable_declaration`: skip `[A-Za-z0-9_]*` from `pos + 1`,
then skip whitespace.  The Python computes this twice with identical
loops; factoring it makes the identity of the two scans explicit. -/
def varDeclEqPos (s : Array Char) (pos : Nat) : Nat :=
  skipWhile pyIsSpace s (s.size + 1)
    (skipWhile (fun c => pyIsAlnum c || c = '_') s (s.size + 1) (pos + 1))

/-- `Lexer._is_variable_declaration`. -/
def isVariableDeclaration (s : Array Char) (pos : Nat) : Bool :=
  let i := varDeclEqPos s pos
  decide (i < s.size) && (charAt s i = '=')

/-- `Lexer._check_keyword_boundary`. -/
def checkKeywordBoundary (s : Array Char) (pos klen : Nat) : Bool :=
  if pos + klen ≥ s.size then true
  else ¬ (pyIsAlnum (charAt s (pos + klen)) || charAt s (pos + klen) = '_')

/-- `Lexer._is_for_loop` (note: the boundary is checked at offset 4, the
character after the space of `"for "`). -/
def isForLoop (s : Array Char) (pos : Nat) : Bool :=
  decide (pos + 3 < s.size) && matchAt s pos ['f', 'o', 'r', ' ']
    && checkKeywordBoundary s pos 4

/-- `Lexer._is_if_statement` (boundary checked at offset 2, the space). -/
def isIfStatement (s : Array Char) (pos : Nat) : Bool :=
  decide (pos + 2 < s.size) && matchAt s pos ['i', 'f', ' ']
    && checkKeywordBoundary s pos 2

/-- `Lexer._is_else_statement`. -/
def isElseStatement (s : Array Char) (pos : Nat) : Bool :=
  decide (pos + 4 < s.size)
    && (matchAt s pos ['e', 'l', 's', 'e', ':']
        || (matchAt s pos ['e', 'l', 's', 'e'] && pyIsSpace (charAt s (pos + 4))))

/-- `Lexer._is_component_definition`. -/
def isComponentDefinition (s : Array Char) (pos : Nat) : Bool :=
  decide (pos + 9 < s.size)
    && matchAt s pos ['@', 'c', 'o', 'm', 'p', 'o', 'n', 'e', 'n', 't']

/-- `Lexer._is_component_use` (dead code in the source: the `'@'` branch of
`tokenize` never calls it; kept for completeness). -/
def isComponentUse (s : Array Char) (pos : Nat) : Bool :=
  decide (pos < s.size) && (charAt s pos = '@')
    && decide (pos + 1 < s.size) && pyIsAlpha (charAt s (pos + 1))

/-- `Lexer._tokenize_comment`. -/
def tokenizeComment (st : LexState) : LexState :=
  let startPos := st.position
  let e := skipWhile (fun c => c ≠ '\n') st.source (st.source.size + 1) st.position
  let tok : Token := ⟨.COMMENT, sliceStr st.source startPos e, st.line, startPos + 1⟩
  { advanceTo st e with tokens := st.tokens ++ [tok] }

/-- `Lexer._tokenize_multiline_string`. -/
def tokenizeMultilineString (st : LexState) : Except LexError LexState :=
  let startPos := st.position
  let startLine := st.line
  let st1 := advanceTo st (st.position + 3)
  match scanTripleEnd st.source (st.source.size + 1) st1.position st1.line st1.column with
  | none => .error .unterminatedMultiline
  | some (pos, line, col) =>
    let value := sliceStr st.source startPos (pos + 3)
    let tok : Token := ⟨.MULTILINE_STRING, value, startLine, startPos + 1⟩
    let st2 : LexState :=
      { st1 with
        position := pos
        line := line
        column := col
        tokens := st1.tokens ++ [tok] }
    .ok (advanceTo st2 (pos + 3))

/-- `Lexer._tokenize_string`. -/
def tokenizeString (st : LexState) : Except LexError LexState :=
  let startPos := st.position
  let q := charAt st.source st.position
  let st1 := advanceTo st (st.position + 1)
  match scanStringEnd st.source q (st.source.size + 1) st1.position st1.line st1.column with
  | none => .error .unterminatedString
  | some (pos, line, col) =>
    let value := sliceStr st.source startPos (pos + 1)
    let tok : Token := ⟨.STRING, value, line, startPos + 1⟩
    let st2 : LexState :=
      { st1 with
        position := pos
        line := line
        column := col
        tokens := st1.tokens ++ [tok] }
    .ok (advanceTo st2 (pos + 1))

/-- `Lexer._tokenize_variable_declaration`.  Its `raise` branch fires only
when the scan (the same scan `_is_variable_declaration` performs) does not
find `=`. -/
def tokenizeVariableDeclaration (st : LexState) : Except LexError LexState :=
  let startPos := st.position
  let p2 := varDeclEqPos st.source st.position
  if p2 < st.source.size ∧ charAt st.source p2 = '=' then
    let p3 := skipWhile pyIsSpace st.source (st.source.size + 1) (p2 + 1)
    let p4 := skipWhile (fun c => c ≠ '\n' ∧ c ≠ '#') st.source (st.source.size + 1) p3
    let decl := pyStrip (sliceStr st.source startPos p4)
    .ok { advanceTo st p4 with
          tokens := st.tokens ++ [⟨.VARIABLE_DECL, decl, st.line, startPos + 1⟩] }
  else .error .expectedEq

/-- `Lexer._tokenize_variable_reference`. -/
def tokenizeVariableReference (st : LexState) : LexState :=
  let startPos := st.position
  let e := skipWhile (fun c => pyIsAlnum c || c = '_') st.source
    (st.source.size + 1) (st.position + 1)
  { advanceTo st e with
    tokens := st.tokens ++ [⟨.VARIABLE_REF, sliceStr st.source startPos e, st.line, startPos + 1⟩] }

/-- The `until ':' or newline` scan shared by the for/if statement
tokenizers (neither consumes the colon). -/
def tokenizeHeader (st : LexState) (tt : TokenType) : LexState :=
  let startPos := st.position
  let e := skipWhile (fun c => c ≠ ':' ∧ c ≠ '\n') st.source (st.source.size + 1) st.position
  { advanceTo st e with
    tokens := st.tokens ++ [⟨tt, pyStrip (sliceStr st.source startPos e), st.line, startPos + 1⟩] }

/-- `Lexer._tokenize_for_loop`. -/
def tokenizeForLoop (st : LexState) : LexState :=
  tokenizeHeader st .FOR_LOOP

/-- `Lexer._tokenize_if_statement`. -/
def tokenizeIfStatement (st : LexState) : LexState :=
  tokenizeHeader st .IF_STATEMENT

/-- The `until ':' (inclusive) or newline` scan shared by the else /
component-definition / component-use tokenizers (all include the colon). -/
def tokenizeHeaderColon (st : LexState) (tt : TokenType) : LexState :=
  let startPos := st.position
  let e := skipWhile (fun c => c ≠ ':' ∧ c ≠ '\n') st.source (st.source.size + 1) st.position
  let e := if e < st.source.size ∧ charAt st.source e = ':' then e + 1 else e
  { advanceTo st e with
    tokens := st.tokens ++ [⟨tt, pyStrip (sliceStr st.source startPos e), st.line, startPos + 1⟩] }

/-- `Lexer._tokenize_else_statement`. -/
def tokenizeElseStatement (st : LexState) : LexState :=
  tokenizeHeaderColon st .ELSE_STATEMENT

/-- `Lexer._tokenize_component_definition`. -/
def tokenizeComponentDefinition (st : LexState) : LexState :=
  tokenizeHeaderColon st .COMPONENT_DEF

/-- `Lexer._tokenize_component_use` (scans to newline, but stops after a
colon when one appears first — the same positions as `tokenizeHeaderColon`). -/
def tokenizeComponentUse (st : LexState) : LexState :=
  tokenizeHeaderColon st .COMPONENT_USE

/-- `Lexer._tokenize_element_or_attribute`. -/
def tokenizeElementOrAttribute (st : LexState) : LexState :=
  let startPos := st.position
  let e := skipWhile (fun c => pyIsAlnum c || c = '_' || c = '-') st.source
    (st.source.size + 1) st.position
  let st1 := advanceTo st e
  let i := skipWhile (fun c => pyIsSpace c ∧ c ≠ '\n') st.source (st.source.size + 1) e
  let nextNonSpace : Option Char := if i < st.source.size then some (charAt st.source i) else none
  let elementName := sliceStr st.source startPos e
  let isElem : Bool :=
    match nextNonSpace with
    | some c => c = ':' ∨ (c ≠ '\n' ∧ c ≠ '#')
    | none => false
  if isElem then
    let st2 := { st1 with
      tokens := st1.tokens ++ [⟨.ELEMENT, elementName, st1.line, startPos + 1⟩] }
    if nextNonSpace ≠ some ':' then
      let attrStart := st2.position
      let a := skipWhile (fun c => c ≠ ':' ∧ c ≠ '\n') st.source (st.source.size + 1) attrStart
      let attributes := pyStrip (sliceStr st.source attrStart a)
      let st3 := advanceTo st2 a
      if attributes ≠ "" then
        { st3 with tokens := st3.tokens ++ [⟨.ATTRIBUTE, attributes, st3.line, attrStart + 1⟩] }
      else st3
    else st2
  else
    { st1 with tokens := st1.tokens ++ [⟨.CONTENT, elementName, st1.line, startPos + 1⟩] }

/-- The pop/emit loop of `Lexer._handle_indentation`'s dedent branch:
pop and emit one DEDENT while `indent < indent_stack[-1]`. -/
def popLevels (indent : Nat) (line col : Nat) : List Nat → List Nat × List Token
  | [] => ([], [])
  | t :: rest =>
    if indent < t then
      ((popLevels indent line col rest).1,
        ⟨.DEDENT, "", line, col⟩ :: (popLevels indent line col rest).2)
    else (t :: rest, [])

/-- `Lexer._handle_indentation`. -/
def handleIndentation (st : LexState) : Except LexError LexState :=
  let startPos := st.position
  let e := skipWhile (fun c => pyIsSpace c ∧ c ≠ '\n') st.source (st.source.size + 1) st.position
  let indent := e - startPos
  let st1 := advanceTo st e
  if e < st.source.size ∧ (charAt st.source e = '\n' ∨ charAt st.source e = '#') then
    .ok st1
  else
    let current := st1.indentStack.headD 0
    if indent > current then
      .ok { st1 with
            indentStack := indent :: st1.indentStack
            tokens := st1.tokens ++ [⟨.INDENT, indentStr indent, st1.line, startPos + 1⟩] }
    else if indent < current then
      let pl := popLevels indent st1.line (startPos + 1) st1.indentStack
      if indent ≠ pl.1.headD 0 then .error .inconsistentIndent
      else .ok { st1 with indentStack := pl.1, tokens := st1.tokens ++ pl.2 }
    else .ok st1

/-! ## Lexer main loop (`Lexer.tokenize`) -/

/-- The character dispatch of one iteration of the
`while self.position < len(self.source)` loop (everything after the
indentation handling). -/
def lexDispatch (st : LexState) : Except LexError LexState :=
  if st.position ≥ st.source.size then
    .ok st
  else
    let c := charAt st.source st.position
    if st.position + 2 < st.source.size ∧ matchAt st.source st.position ['"', '"', '"'] then
      tokenizeMultilineString st
    else if c = '#' then
      .ok (tokenizeComment st)
    else if c = '"' ∨ c = '\'' then
      tokenizeString st
    else if c = '$' then
      if isVariableDeclaration st.source st.position then
        tokenizeVariableDeclaration st
      else .ok (tokenizeVariableReference st)
    else if c = ':' then
      .ok { advanceTo st (st.position + 1) with
            tokens := st.tokens ++ [⟨.COLON, ":", st.line, st.column⟩] }
    else if c = '@' then
      if isComponentDefinition st.source st.position then
        .ok (tokenizeComponentDefinition st)
      else .ok (tokenizeComponentUse st)
    else if c = '\n' then
      let tok : Token := ⟨.NEWLINE, "\n", st.line, st.column⟩
      let st1 := { advanceTo st (st.position + 1) with tokens := st.tokens ++ [tok] }
      .ok { st1 with line := st.line + 1, column := 1 }
    else if isForLoop st.source st.position then
      .ok (tokenizeForLoop st)
    else if isIfStatement st.source st.position then
      .ok (tokenizeIfStatement st)
    else if isElseStatement st.source st.position then
      .ok (tokenizeElseStatement st)
    else if pyIsAlpha c || c = '_' then
      .ok (tokenizeElementOrAttribute st)
    else
      .ok (advanceTo st (st.position + 1))

/-- One iteration of the `while self.position < len(self.source)` loop:
indentation handling at a line start, then the character dispatch. -/
def lexStep (st : LexState) : Except LexError LexState := do
  let st ←
    if st.position = 0 ∨ charAt st.source (st.position - 1) = '\n' then
      handleIndentation st
    else .ok st
  lexDispatch st

/-- The fuel-indexed main loop; fuel `size + 1` suffices because every
step strictly advances the position. -/
def lexLoop : Nat → LexState → Except LexError LexState
  | 0, st => if st.position < st.source.size then .error .fuelOut else .ok st
  | fuel + 1, st =>
    if st.position < st.source.size then
      match lexStep st with
      | .error e => .error e
      | .ok st' => lexLoop fuel st'
    else .ok st

/-- The `while self.indent_stack[-1] > 0` loop at the end of `tokenize`. -/
def emitFinalDedents (line col : Nat) : List Nat → List Token
  | [] => []
  | t :: rest =>
    if t > 0 then ⟨.DEDENT, "", line, col⟩ :: emitFinalDedents line col rest
    else []

/-- `Lexer.tokenize`. -/
def tokenize (source : String) : Except LexError (List Token) :=
  let src : Array Char := source.data.toArray
  let st0 : LexState := ⟨src, 0, 1, 1, [0], []⟩
  match lexLoop (src.size + 1) st0 with
  | .error e => .error e
  | .ok st =>
    .ok (st.tokens ++ emitFinalDedents st.line st.column st.indentStack
          ++ [⟨.EOF, "", st.line, st.column⟩])


/-! ## Lexer invariants (for claims C3 and C5) -/

deriving instance DecidableEq for Except

/-- Number of tokens of a given type. -/
def countTok (tt : TokenType) (ts : List Token) : Nat :=
  ts.countP (fun t => t.type = tt)

/-- The indentation-stack well-formedness plus the INDENT/DEDENT count
relation maintained by the lexer: the stack is positive levels over the
base 0, and the surplus of INDENT over DEDENT tokens equals the number
of open levels. -/
def Ilex (st : LexState) : Prop :=
  (∃ l, st.indentStack = l ++ [0] ∧ ∀ x ∈ l, 0 < x) ∧
  countTok .INDENT st.tokens = countTok .DEDENT st.tokens + (st.indentStack.length - 1)

/-- What every successful character-dispatch branch of the lexer does:
advance strictly, keep the source and the indentation stack, and append
only non-INDENT/DEDENT tokens. -/
def LexOk (st st' : LexState) : Prop :=
  st.position < st'.position ∧ st'.source = st.source ∧
  st'.indentStack = st.indentStack ∧
  ∃ ts, st'.tokens = st.tokens ++ ts ∧ ∀ t ∈ ts, t.type ≠ .INDENT ∧ t.type ≠ .DEDENT

/-! ## Syntax tree (`clarity_ast.py`) -/

/-- An attribute value: Python stores either a string or `True` (and the
compiler also handles `False`). -/
inductive AttrVal where
  | str (s : String)
  | bool (b : Bool)
  deriving DecidableEq, Repr

inductive ASTNode where
  | element (name : String) (attributes : List (String × AttrVal))
      (children : List ASTNode) (content : Option String)
  | textContent (value : String)
  | variableDeclaration (name : String) (value : String)
  | variableReference (name : String)
  | forLoop (iterator : String) (iterable : String) (body : List ASTNode)
  | conditional (condition : String) (ifBody : List ASTNode)
      (elseBody : Option (List ASTNode))
  | componentDefinition (name : String) (parameters : List String)
      (defaultValues : List (String × String)) (body : List ASTNode)
  | componentUse (name : String) (arguments : List (String × String))

/-- What a component table stores about a `ComponentDefinition` node:
its parameters, default values and body. -/
structure CompEntry where
  parameters : List String
  defaultValues : List (String × String)
  body : List ASTNode

/-! ## Parser state and primitive token operations (`clarity_parser.py`) -/

/-- The parser's mutable state.  `vars` is Python's `self.variables`, the
forward registry used by attribute parsing (the identifier `variables` is
reserved in Lean). -/
structure ParserState where
  tokens : Array Token
  position : Nat
  vars : List (String × String)
  components : List (String × CompEntry)

/-- A Python exception inside the parser (`idxError`: a list index out of
range, proved unreachable on lexer output), or the fuel artifact of the
embedding. -/
inductive PErr where
  | idxError
  | fuelOut
  deriving DecidableEq, Repr

/-- A default token, only used under bounds guards that the Python's own
guards make unreachable. -/
def dfltToken : Token := ⟨.EOF, "", 0, 0⟩

/-- `Parser._is_at_end` (the short-circuit makes the index access safe). -/
def isAtEnd (st : ParserState) : Bool :=
  decide (st.position ≥ st.tokens.size)
    || (st.tokens.getD st.position dfltToken).type = .EOF

/-- `Parser._peek`: `self.tokens[self.position]`. -/
def peek (st : ParserState) : Except PErr Token :=
  if st.position < st.tokens.size then .ok (st.tokens.getD st.position dfltToken)
  else .error .idxError

/-- `Parser._advance`: advance when not at end; return the token the
position moved past (Python `self.tokens[self.position - 1]`, which wraps
to the last element when the position is 0). -/
def pAdvance (st : ParserState) : Except PErr (Token × ParserState) :=
  if ¬ isAtEnd st then
    .ok (st.tokens.getD st.position dfltToken, { st with position := st.position + 1 })
  else
    if st.position = 0 then
      if st.tokens.size > 0 then .ok (st.tokens.getD (st.tokens.size - 1) dfltToken, st)
      else .error .idxError
    else
      if st.position - 1 < st.tokens.size then
        .ok (st.tokens.getD (st.position - 1) dfltToken, st)
      else .error .idxError

/-- `Parser._check`. -/
def check (tt : TokenType) (st : ParserState) : Bool :=
  if isAtEnd st then false
  else (st.tokens.getD st.position dfltToken).type = tt

/-- `Parser._consume`: on a type mismatch the Python logs and returns the
current token without advancing. -/
def consume (tt : TokenType) (st : ParserState) : Except PErr (Token × ParserState) :=
  if check tt st then pAdvance st
  else
    match peek st with
    | .ok t => .ok (t, st)
    | .error e => .error e

/-! ## Statement-header matchers (the `re.match` patterns) -/

/-- The pattern of `_parse_variable_declaration`:
`\$([\w_]+)\s*=\s*(.*)` (the trailing group stops at a newline). -/
def matchVarDecl (s : String) : Option (String × String) :=
  match s.data with
  | '$' :: rest =>
    let p := rest.span isWordChar
    if p.1 = [] then none
    else
      match p.2.dropWhile pyIsSpace with
      | '=' :: rest3 =>
        let rest4 := rest3.dropWhile pyIsSpace
        some (String.mk p.1, String.mk (rest4.takeWhile (fun c => c ≠ '\n')))
      | _ => none
  | _ => none

/-- Regex helper: a literal prefix (`for`, `in`, ...), returning the rest. -/
def reqLit (pat l : List Char) : Option (List Char) :=
  if pat.isPrefixOf l then some (l.drop pat.length) else none

/-- Regex helper `\s+`: require at least one whitespace character, then
drop the (maximal) whitespace run. -/
def reqSpace : List Char → Option (List Char)
  | c :: rest => if pyIsSpace c then some ((c :: rest).dropWhile pyIsSpace) else none
  | [] => none

/-- Regex helper `(\w+)`: a maximal nonempty word-character run. -/
def reqWord (l : List Char) : Option (List Char × List Char) :=
  let p := l.span isWordChar
  if p.1 = [] then none else some p

/-- Regex helper `(.+)`: a nonempty run up to a newline or the end. -/
def reqRest (l : List Char) : Option (List Char) :=
  let value := l.takeWhile (fun c => c ≠ '\n')
  if value = [] then none else some value

/-- The pattern of `_parse_for_loop`: `for\s+(\w+)\s+in\s+(.+)`. -/
def matchForHeader (s : String) : Option (String × String) := do
  let r1 ← reqLit ['f', 'o', 'r'] s.data
  let r2 ← reqSpace r1
  let (name, r3) ← reqWord r2
  let r4 ← reqSpace r3
  let r5 ← reqLit ['i', 'n'] r4
  let r6 ← reqSpace r5
  let value ← reqRest r6
  some (String.mk name, String.mk value)

/-- The pattern of `_parse_conditional`: `if\s+(.+)`. -/
def matchIfHeader (s : String) : Option String := do
  let r1 ← reqLit ['i', 'f'] s.data
  let r2 ← reqSpace r1
  let cond ← reqRest r2
  some (String.mk cond)

/-- The pattern of `_parse_component_definition`:
`@component\s+(\w+)\s*\(([^)]*)\)\s*`. -/
def matchComponentDef (s : String) : Option (String × String) := do
  let r1 ← reqLit "@component".data s.data
  let r2 ← reqSpace r1
  let (name, r3) ← reqWord r2
  match r3.dropWhile pyIsSpace with
  | '(' :: r4 =>
    let params := r4.takeWhile (fun c => c ≠ ')')
    match r4.drop params.length with
    | ')' :: _ => some (String.mk name, String.mk params)
    | _ => none
  | _ => none

/-- The pattern of `_parse_component_use`: `@(\w+)(?:\s*\(([^)]*)\))?`
(the argument group is optional and contributes `""` when absent). -/
def matchComponentUse (s : String) : Option (String × String) :=
  match s.data with
  | '@' :: rest =>
    let p := rest.span isWordChar
    if p.1 = [] then none
    else
      match p.2.dropWhile pyIsSpace with
      | '(' :: r2 =>
        let args := r2.takeWhile (fun c => c ≠ ')')
        match r2.drop args.length with
        | ')' :: _ => some (String.mk p.1, String.mk args)
        | _ => some (String.mk p.1, "")
      | _ => some (String.mk p.1, "")
  | _ => none

/-! ## Small parsing helpers -/

/-- Strip matching double or single quotes (used for component defaults,
component-use arguments, and attribute values). -/
def stripQuotes (v : String) : String :=
  if (pyStartsWith v "\"" ∧ pyEndsWith v "\"") ∨ (pyStartsWith v "'" ∧ pyEndsWith v "'")
  then strInner v else v

/-- The character loop of `Parser._parse_attributes` that splits the raw
attribute text on spaces outside quotes.  State: in-quotes flag, pending
quote character, current chunk, completed chunks. -/
def attrSplitStep (acc : Bool × Option Char × List Char × List String) (c : Char) :
    Bool × Option Char × List Char × List String :=
  let (inQuotes, quoteChar, current, parts) := acc
  let (inQuotes, quoteChar) :=
    if c = '"' ∨ c = '\'' then
      if ¬ inQuotes then (true, some c)
      else if some c = quoteChar then (false, none)
      else (inQuotes, quoteChar)
    else (inQuotes, quoteChar)
  let current := current ++ [c]
  if c = ' ' ∧ ¬ inQuotes then
    if pyStripList current ≠ [] then
      (inQuotes, quoteChar, [], parts ++ [String.mk (pyStripList current)])
    else (inQuotes, quoteChar, [], parts)
  else (inQuotes, quoteChar, current, parts)

/-- `Parser._parse_attributes`: split into parts, then classify each part
as `key=value` (unquote, then substitute every registry variable whose
name occurs in the value) or as a boolean attribute. -/
def parseAttributes (registry : List (String × String)) (attrStr : String) :
    List (String × AttrVal) :=
  let st := attrStr.data.foldl attrSplitStep (false, none, [], [])
  let parts := if pyStripList st.2.2.1 ≠ [] then
    st.2.2.2 ++ [String.mk (pyStripList st.2.2.1)] else st.2.2.2
  parts.foldl (fun attributes attr =>
    match splitFirst '=' attr.data with
    | some (k, v) =>
      let key := pyStrip (String.mk k)
      let value := pyStrip (String.mk v)
      let value := stripQuotes value
      let value := registry.foldl (fun value p =>
        if pyContains value p.1 then pyReplace value p.1 p.2 else value) value
      dictSet attributes key (.str value)
    | none => dictSet attributes (pyStrip attr) (.bool true)) []

/-- The parameter-list loop of `_parse_component_definition`. -/
def parseParams (paramsStr : String) : List String × List (String × String) :=
  if pyStrip paramsStr ≠ "" then
    (splitChar ',' paramsStr.data).foldl (fun acc chunk =>
      let param := pyStrip (String.mk chunk)
      match splitFirst '=' param.data with
      | some (pn, dv) =>
        let paramName := pyStrip (String.mk pn)
        let dflt := stripQuotes (pyStrip (String.mk dv))
        (acc.1 ++ [paramName], dictSet acc.2 paramName dflt)
      | none => (acc.1 ++ [param], acc.2)) ([], [])
  else ([], [])

/-- The argument-list loop of `_parse_component_use` (a chunk without `=`
is a reported error and contributes nothing). -/
def parseArgs (argsStr : String) : List (String × String) :=
  if pyStrip argsStr ≠ "" then
    (splitChar ',' argsStr.data).foldl (fun args chunk =>
      let arg := pyStrip (String.mk chunk)
      match splitFirst '=' arg.data with
      | some (an, av) =>
        dictSet args (pyStrip (String.mk an)) (stripQuotes (pyStrip (String.mk av)))
      | none => args) []
  else []

/-! ## Parser statement handlers

Each handler mirrors one `Parser._parse_*` method.  The handlers that
parse a nested block receive the block parser as an explicit argument
`pblock` (the recursive knot is tied by `parseRun` below). -/

/-- `Parser._parse_variable_declaration`. -/
def parseVariableDeclaration (st : ParserState) : Except PErr (ASTNode × ParserState) := do
  let (tok, st) ← consume .VARIABLE_DECL st
  match matchVarDecl tok.value with
  | none => .ok (.variableDeclaration "error" "", st)
  | some (name, rawValue) =>
    let value := pyStrip rawValue
    let value :=
      if pyStartsWith value "\"" ∧ pyEndsWith value "\"" then strInner value else value
    let st := { st with vars := dictSet st.vars ("$" ++ name) value }
    .ok (.variableDeclaration name value, st)

/-- `Parser._parse_multiline_string`. -/
def parseMultilineStringStmt (st : ParserState) : Except PErr (ASTNode × ParserState) := do
  let (tok, st) ← consume .MULTILINE_STRING st
  .ok (.textContent tok.value, st)

/-- `Parser._parse_content`. -/
def parseContentF (st : ParserState) : Except PErr (String × ParserState) := do
  if check .STRING st then
    let (tok, st) ← consume .STRING st
    let content := tok.value
    let content :=
      if pyStartsWith content "\"" ∧ pyEndsWith content "\"" then strInner content
      else content
    .ok (content, st)
  else if check .MULTILINE_STRING st then
    let (tok, st) ← consume .MULTILINE_STRING st
    .ok (tok.value, st)
  else if check .VARIABLE_REF st then
    let (tok, st) ← consume .VARIABLE_REF st
    match dictGet st.vars tok.value with
    | some v => .ok (v, st)
    | none => .ok (tok.value, st)
  else if check .CONTENT st then
    let (tok, st) ← consume .CONTENT st
    .ok (tok.value, st)
  else
    .ok ("", st)

/-- The tail of `Parser._parse_element` after the attribute handling
(from `self._consume(TokenType.COLON)` on). -/
def parseElementRest
    (pblock : ParserState → Except PErr (List ASTNode × ParserState))
    (elementName : String) (attributes : List (String × AttrVal))
    (st : ParserState) : Except PErr (ASTNode × ParserState) := do
  let (_, st) ← consume .COLON st
  if check .STRING st ∨ check .VARIABLE_REF st ∨ check .CONTENT st
      ∨ check .MULTILINE_STRING st then
    let (content, st) ← parseContentF st
    .ok (.element elementName attributes [] (some content), st)
  else if check .NEWLINE st then
    let (_, st) ← consume .NEWLINE st
    if check .INDENT st then
      let (_, st) ← consume .INDENT st
      let (children, st) ← pblock st
      let (_, st) ← consume .DEDENT st
      .ok (.element elementName attributes children none, st)
    else
      .ok (.element elementName attributes [] none, st)
  else
    .ok (.element elementName attributes [] none, st)

/-- `Parser._parse_element`. -/
def parseElementWith
    (pblock : ParserState → Except PErr (List ASTNode × ParserState))
    (st : ParserState) : Except PErr (ASTNode × ParserState) := do
  let (etok, st) ← consume .ELEMENT st
  if check .ATTRIBUTE st then
    let (atok, st) ← consume .ATTRIBUTE st
    parseElementRest pblock etok.value (parseAttributes st.vars atok.value) st
  else
    parseElementRest pblock etok.value [] st

/-- `Parser._parse_for_loop`. -/
def parseForLoopWith
    (pblock : ParserState → Except PErr (List ASTNode × ParserState))
    (st : ParserState) : Except PErr (ASTNode × ParserState) := do
  let (ftok, st) ← consume .FOR_LOOP st
  match matchForHeader ftok.value with
  | none => .ok (.forLoop "error" "error" [], st)
  | some (iterator, iterable) =>
    let (_, st) ← consume .COLON st
    let (_, st) ← consume .NEWLINE st
    let (_, st) ← consume .INDENT st
    let (body, st) ← pblock st
    let (_, st) ← consume .DEDENT st
    .ok (.forLoop iterator iterable body, st)

/-- `Parser._parse_conditional`. -/
def parseConditionalWith
    (pblock : ParserState → Except PErr (List ASTNode × ParserState))
    (st : ParserState) : Except PErr (ASTNode × ParserState) := do
  let (itok, st) ← consume .IF_STATEMENT st
  match matchIfHeader itok.value with
  | none => .ok (.conditional "True" [] none, st)
  | some condition =>
    let (_, st) ← consume .COLON st
    let (_, st) ← consume .NEWLINE st
    let (_, st) ← consume .INDENT st
    let (ifBody, st) ← pblock st
    let (_, st) ← consume .DEDENT st
    if check .ELSE_STATEMENT st then
      let (_, st) ← consume .ELSE_STATEMENT st
      let (_, st) ← consume .NEWLINE st
      let (_, st) ← consume .INDENT st
      let (elseBody, st) ← pblock st
      let (_, st) ← consume .DEDENT st
      .ok (.conditional condition ifBody (some elseBody), st)
    else
      .ok (.conditional condition ifBody none, st)

/-- The tail of `Parser._parse_component_definition` after the optional
colon (from `self._consume(TokenType.NEWLINE)` on). -/
def parseComponentDefRest
    (pblock : ParserState → Except PErr (List ASTNode × ParserState))
    (name : String) (parameters : List String)
    (defaultValues : List (String × String))
    (st : ParserState) : Except PErr (ASTNode × ParserState) := do
  let (_, st) ← consume .NEWLINE st
  let (_, st) ← consume .INDENT st
  let (body, st) ← pblock st
  let (_, st) ← consume .DEDENT st
  let st := { st with
    components := dictSet st.components name ⟨parameters, defaultValues, body⟩ }
  .ok (.componentDefinition name parameters defaultValues body, st)

/-- `Parser._parse_component_definition`. -/
def parseComponentDefinitionWith
    (pblock : ParserState → Except PErr (List ASTNode × ParserState))
    (st : ParserState) : Except PErr (ASTNode × ParserState) := do
  let (ctok, st) ← consume .COMPONENT_DEF st
  match matchComponentDef ctok.value with
  | none => .ok (.componentDefinition "error" [] [] [], st)
  | some (name, paramsStr) =>
    let pd := parseParams paramsStr
    if ¬ pyEndsWith ctok.value ":" then do
      let (_, st) ← consume .COLON st
      parseComponentDefRest pblock name pd.1 pd.2 st
    else
      parseComponentDefRest pblock name pd.1 pd.2 st

/-- `Parser._parse_component_use`. -/
def parseComponentUseStmt (st : ParserState) : Except PErr (ASTNode × ParserState) := do
  let (ctok, st) ← consume .COMPONENT_USE st
  match matchComponentUse ctok.value with
  | none => .ok (.componentUse "error" [], st)
  | some (name, argsStr) => .ok (.componentUse name (parseArgs argsStr), st)

/-! ## The parser's recursive knot -/

/-- The three mutually recursive parsing loops. -/
inductive PCmd where
  | statement
  | block
  | topLevel

/-- Results of the loops: one optional statement, or a node list. -/
inductive PVal where
  | stmt (node : Option ASTNode)
  | nodes (ns : List ASTNode)

/-- Prepend the node of a statement result, if any, to a node list. -/
def consOpt (v : PVal) (ns : List ASTNode) : List ASTNode :=
  match v with
  | .stmt (some n) => n :: ns
  | .stmt none => ns
  | .nodes _ => ns

/-- Extract the node list of a block result. -/
def blockVal (v : PVal) : List ASTNode :=
  match v with
  | .nodes ns => ns
  | .stmt _ => []

/-- `Parser._parse_statement` / `_parse_block` / `parse`, fuel-indexed.
Every recursive call decreases the fuel; `parseDocument` supplies a fuel
large enough that it never runs out (each statement consumes at least one
token). -/
def parseRun : Nat → PCmd → ParserState → Except PErr (PVal × ParserState)
  | 0, _, _ => .error .fuelOut
  | fuel + 1, .statement, st => do
    let tok ← peek st
    let pblock := fun st' =>
      match parseRun fuel .block st' with
      | .ok (v, st'') => .ok (blockVal v, st'')
      | .error e => .error e
    match tok.type with
    | .VARIABLE_DECL =>
      let (n, st) ← parseVariableDeclaration st
      .ok (.stmt (some n), st)
    | .COMPONENT_DEF =>
      let (n, st) ← parseComponentDefinitionWith pblock st
      .ok (.stmt (some n), st)
    | .ELEMENT =>
      let (n, st) ← parseElementWith pblock st
      .ok (.stmt (some n), st)
    | .FOR_LOOP =>
      let (n, st) ← parseForLoopWith pblock st
      .ok (.stmt (some n), st)
    | .IF_STATEMENT =>
      let (n, st) ← parseConditionalWith pblock st
      .ok (.stmt (some n), st)
    | .COMPONENT_USE =>
      let (n, st) ← parseComponentUseStmt st
      .ok (.stmt (some n), st)
    | .NEWLINE =>
      let (_, st) ← pAdvance st
      .ok (.stmt none, st)
    | .COMMENT =>
      let (_, st) ← pAdvance st
      .ok (.stmt none, st)
    | .MULTILINE_STRING =>
      let (n, st) ← parseMultilineStringStmt st
      .ok (.stmt (some n), st)
    | _ =>
      let (_, st) ← pAdvance st
      .ok (.stmt none, st)
  | fuel + 1, .block, st =>
    if ¬ isAtEnd st ∧ ¬ check .DEDENT st then
      match parseRun fuel .statement st with
      | .error e => .error e
      | .ok (v, st') =>
        match parseRun fuel .block st' with
        | .error e => .error e
        | .ok (v', st'') => .ok (.nodes (consOpt v (blockVal v')), st'')
    else .ok (.nodes [], st)
  | fuel + 1, .topLevel, st =>
    if ¬ isAtEnd st then
      match peek st with
      | .error e => .error e
      | .ok tok =>
        if tok.type = .EOF then .ok (.nodes [], st)
        else
          match parseRun fuel .statement st with
          | .error e => .error e
          | .ok (v, st') =>
            match parseRun fuel .topLevel st' with
            | .error e => .error e
            | .ok (v', st'') => .ok (.nodes (consOpt v (blockVal v')), st'')
    else .ok (.nodes [], st)

/-- `Parser.parse` on a token list: returns the `Document` children and
the final parser state. -/
def parseDocument (ts : List Token) : Except PErr (List ASTNode × ParserState) :=
  let st0 : ParserState := ⟨ts.toArray, 0, [], []⟩
  match parseRun (2 * ts.length + 2) .topLevel st0 with
  | .ok (v, st) => .ok (blockVal v, st)
  | .error e => .error e


/-! ## Parser invariants (for claim C3) -/

/-- The parser-state invariant maintained on lexer output: the position
stays strictly inside the token array, whose last token is EOF. -/
def PInv (st : ParserState) : Prop :=
  st.position < st.tokens.size ∧
  (st.tokens.getD (st.tokens.size - 1) dfltToken).type = .EOF

/-- A successful parsing step from `st`: same tokens, position not moved
backwards, invariant preserved. -/
def PStep {α : Type} (st : ParserState) (r : Except PErr (α × ParserState)) : Prop :=
  ∃ a st', r = .ok (a, st') ∧ PInv st' ∧ st'.tokens = st.tokens
    ∧ st.position ≤ st'.position

/-- A successful parsing step that strictly advances the position. -/
def PStepS {α : Type} (st : ParserState) (r : Except PErr (α × ParserState)) : Prop :=
  ∃ a st', r = .ok (a, st') ∧ PInv st' ∧ st'.tokens = st.tokens
    ∧ st.position < st'.position

/-! ## Code generator (`clarity_compiler.py`) -/

/-- The generator's mutable state (`Compiler.__init__`), plus the
accumulated warning messages the Python prints. -/
structure CState where
  output : List String
  indentation : Nat
  vars : List (String × String)
  components : List (String × CompEntry)
  warnings : List String

/-- The external `eval` primitive used by `_compile_conditional`:
`some b` is the truthiness of the evaluated value, `none` an exception. -/
def EvalOracle : Type := String → Option Bool

/-- An oracle under which every condition evaluation throws (the
conservative instantiation used for concrete runs without conditionals). -/
def noEval : EvalOracle := fun _ => none

/-- Truthiness of a Python list (empty is falsy). -/
def listTruthy {α : Type} : List α → Bool
  | [] => false
  | _ :: _ => true

/-- `Compiler._collect_components`: record every top-level
`ComponentDefinition` and recurse into the children of elements that have
any; fuel-indexed (any fuel above the number of tree nodes is enough, and
the fuel-out case returns the table unchanged). -/
def collectComponents : Nat → List ASTNode → List (String × CompEntry) →
    List (String × CompEntry)
  | 0, _, table => table
  | _, [], table => table
  | fuel + 1, n :: rest, table =>
    let table :=
      match n with
      | .componentDefinition name ps ds body => dictSet table name ⟨ps, ds, body⟩
      | .element _ _ children _ =>
        if listTruthy children then collectComponents fuel children table else table
      | _ => table
    collectComponents fuel rest table

/-- `Compiler._compile_attributes`. -/
def compileAttributes (attributes : List (String × AttrVal)) : String :=
  joinSpace (attributes.map (fun p =>
    match p.2 with
    | .bool true => p.1
    | .bool false => p.1 ++ "=\"False\""
    | .str s => p.1 ++ "=\"" ++ s ++ "\""))

/-- `Compiler._replace_variables`. -/
def replaceVariables (vars : List (String × String)) (text : String) : String :=
  vars.foldl (fun text p =>
    if pyContains text p.1 then pyReplace text p.1 p.2 else text) text

/-- Python `self.output_lines[-1] = f(self.output_lines[-1])`. -/
def modifyLast (f : String → String) : List String → List String
  | [] => []
  | [x] => [f x]
  | x :: rest => x :: modifyLast f rest

/-- Truthiness of an `Optional[str]` (Python `if element.content:`:
`None` and the empty string are falsy). -/
def contentTruthy : Option String → Bool
  | none => false
  | some c => c ≠ ""

/-- Truthiness of an optional node list (Python `elif cond.else_body:`). -/
def bodyTruthy : Option (List ASTNode) → Bool
  | none => false
  | some l => listTruthy l

/-- The opening-tag line of `_compile_element` / `_compile_special_element`:
indentation, then `<tag attrs>` or `<tag>`. -/
def openTagLine (ind : Nat) (tag attrs : String) : String :=
  if attrs ≠ "" then indentStr ind ++ "<" ++ tag ++ " " ++ attrs ++ ">"
  else indentStr ind ++ "<" ++ tag ++ ">"

/-- The multiline-content search of `_compile_special_element`: first a
direct `TextContent` child whose stripped value is triple-quote
delimited, else an element child whose inline content contains a
triple-quote pair. -/
def findSpecialContent (children : List ASTNode) : Option String :=
  let direct := children.findSome? (fun child =>
    match child with
    | .textContent v =>
      let stripped := pyStrip v
      if pyStartsWith stripped "\"\"\"" ∧ pyEndsWith stripped "\"\"\"" then
        some (String.mk ((stripped.data.drop 3).dropLast.dropLast.dropLast))
      else none
    | _ => none)
  -- Python: `if not multiline_content:` — an empty result is falsy and
  -- falls through to the second search.
  if direct.isSome ∧ direct ≠ some "" then direct
  else
    let second := children.findSome? (fun child =>
      match child with
      | .element _ _ _ (some content) =>
        if content ≠ "" ∧ pyContains content "\"\"\"" then
          match findSub content.data ['"', '"', '"'], rfindSub content.data ['"', '"', '"'] with
          | some fidx, some ridx =>
            if ridx > fidx + 3 then some (String.mk (pySliceList content.data (fidx + 3) ridx))
            else none
          | _, _ => none
        else none
      | _ => none)
    match second with
    | some v => some v
    | none => direct

/-- The iterable-to-item-list computation of `_compile_for_loop`'s
bound-variable branch. -/
def forLoopItems (raw : String) : List String :=
  if pyStartsWith raw "[" ∧ pyEndsWith raw "]" then
    let items := (splitChar ',' ((raw.data.drop 1).dropLast)).map
      (fun l => pyStrip (String.mk l))
    if items.all (fun item => pyStartsWith item "\"" ∧ pyEndsWith item "\"") then
      items.map strInner
    else items
  else [raw]

/-- The default-then-argument overlay of `_compile_component_use`. -/
def componentEnv (vars : List (String × String))
    (defaultValues arguments : List (String × String)) : List (String × String) :=
  let vars := defaultValues.foldl (fun vars p => dictSet vars ("$" ++ p.1) p.2) vars
  arguments.foldl (fun vars p => dictSet vars ("$" ++ p.1) p.2) vars

/-- The condition-substitution loop of `_compile_conditional`: every
bound variable's occurrences are replaced (unconditionally, in dict
order) by its value wrapped in double quotes. -/
def substCondition (vars : List (String × String)) (condition : String) : String :=
  vars.foldl (fun condition p =>
    pyReplace condition p.1 ("\"" ++ p.2 ++ "\"")) condition

/-- The three recursion shapes of the emission pass: one node
(`_compile_node`), a node sequence (the `for node in ...` loops), and the
per-item loop of `_compile_for_loop`. -/
inductive CCmd where
  | node (n : ASTNode)
  | nodes (ns : List ASTNode)
  | forItems (iterator : String) (body : List ASTNode) (items : List String)

/-- The emission pass.  Fuel decreases on every recursive call; `none`
models a run exceeding the budget (possible only through unboundedly
recursive component uses, which make the Python recurse without bound).
The `.node` branch is `Compiler._compile_node`'s dispatch; each case
mirrors the corresponding `Compiler._compile_*` method. -/
def crun (ev : EvalOracle) : Nat → CCmd → CState → Option CState
  | 0, _, _ => none
  | fuel + 1, .nodes ns, st =>
    match ns with
    | [] => some st
    | n :: rest =>
      match crun ev fuel (.node n) st with
      | none => none
      | some st' => crun ev fuel (.nodes rest) st'
  | fuel + 1, .forItems iterator body items, st =>
    match items with
    | [] => some st
    | item :: rest =>
      -- store the iterator variable
      let tempVar := "$" ++ iterator
      let st1 := { st with vars := dictSet st.vars tempVar item }
      -- process the loop body
      match crun ev fuel (.nodes body) st1 with
      | none => none
      | some st2 =>
        -- clean up
        let st3 :=
          if dictMem st2.vars tempVar then { st2 with vars := dictDel st2.vars tempVar }
          else st2
        crun ev fuel (.forItems iterator body rest) st3
  | fuel + 1, .node n, st =>
    match n with
    | .textContent value =>
      -- `_compile_text`
      some { st with
        output := st.output ++ [indentStr st.indentation ++ replaceVariables st.vars value] }
    | .variableDeclaration name value =>
      -- `_compile_variable_declaration`
      some { st with vars := dictSet st.vars ("$" ++ name) value }
    | .variableReference _ =>
      -- unknown node type for the dispatch: no case tests VariableReference
      some st
    | .componentDefinition _ _ _ _ =>
      -- already collected in the first pass
      some st
    | .componentUse name arguments =>
      -- `_compile_component_use`
      match dictGet st.components name with
      | none =>
        some { st with warnings := st.warnings ++ ["Warning: Unknown component: " ++ name] }
      | some comp =>
        let oldVars := st.vars
        let st1 := { st with vars := componentEnv st.vars comp.defaultValues arguments }
        match crun ev fuel (.nodes comp.body) st1 with
        | none => none
        | some st2 => some { st2 with vars := oldVars }
    | .forLoop iterator iterable body =>
      -- `_compile_for_loop`
      if pyStartsWith iterable "$" then
        match dictGet st.vars iterable with
        | some raw => crun ev fuel (.forItems iterator body (forLoopItems raw)) st
        | none =>
          some { st with warnings := st.warnings
            ++ ["Warning: Unknown variable " ++ iterable ++ " in for loop"] }
      else
        some { st with warnings := st.warnings
          ++ ["Warning: Direct iterables not implemented in for loop: " ++ iterable] }
    | .conditional condition ifBody elseBody =>
      -- `_compile_conditional`
      let condition := substCondition st.vars condition
      let (result, st) :=
        match ev condition with
        | some b => (b, st)
        | none =>
          (false, { st with warnings := st.warnings
            ++ ["Warning: Failed to evaluate condition " ++ condition] })
      if result then crun ev fuel (.nodes ifBody) st
      else if bodyTruthy elseBody then crun ev fuel (.nodes (elseBody.getD [])) st
      else some st
    | .element name attributes children content =>
      -- `_compile_element`
      if name = "document" then
        let st1 := { st with output := st.output ++ ["<!DOCTYPE html>", "<html>"] }
        match crun ev fuel (.nodes children) st1 with
        | none => none
        | some st2 => some { st2 with output := st2.output ++ ["</html>"] }
      else if name = "style" ∨ name = "script" then
        -- `_compile_special_element`
        let attrs := compileAttributes attributes
        let st1 := { st with output := st.output ++ [openTagLine st.indentation name attrs] }
        let st2 :=
          match findSpecialContent children with
          | some mc =>
            if mc ≠ "" then
              let contentLines := (splitChar '\n' mc.data).map
                (fun l => indentStr (st1.indentation + 2) ++ String.mk l)
              { st1 with output := st1.output ++ contentLines }
            else st1
          | none => st1
        some { st2 with
          output := st2.output ++ [indentStr st2.indentation ++ "</" ++ name ++ ">"] }
      else
        let attrs := compileAttributes attributes
        let st1 := { st with output := st.output ++ [openTagLine st.indentation name attrs] }
        if contentTruthy content then
          let c := replaceVariables st.vars (content.getD "")
          let edit := fun last => String.mk last.data.dropLast ++ ">" ++ c ++ "</" ++ name ++ ">"
          some { st1 with output := modifyLast edit st1.output }
        else
          match
            (if listTruthy children then
              match crun ev fuel (.nodes children) { st1 with indentation := st1.indentation + 2 } with
              | none => none
              | some st2 => some { st2 with indentation := st2.indentation - 2 }
            else some st1)
          with
          | none => none
          | some st2 =>
            if listTruthy children ∨ ¬ contentTruthy content then
              some { st2 with
                output := st2.output ++ [indentStr st2.indentation ++ "</" ++ name ++ ">"] }
            else some st2

/-- `Compiler.compile` on the document's children: collect components,
emit every top-level node, join the lines with newlines.  The same fuel
serves the (always terminating) collection pass and the emission pass. -/
def compilerCompile (ev : EvalOracle) (fuel : Nat) (children : List ASTNode) :
    Option String :=
  let table := collectComponents fuel children []
  let st0 : CState := ⟨[], 0, [], table, []⟩
  match crun ev fuel (.nodes children) st0 with
  | none => none
  | some st => some (joinNL st.output)

/-- The full pipeline `tokenize` / `parse` / `compile` of
`clarity_compiler.compile_clarity_file` (fatal stages yield `none`). -/
def compileSource (ev : EvalOracle) (fuel : Nat) (source : String) : Option String :=
  match tokenize source with
  | .error _ => none
  | .ok ts =>
    match parseDocument ts with
    | .error _ => none
    | .ok (children, _) => compilerCompile ev fuel children

/-! ## Theorems about the claims -/

set_option maxRecDepth 1000000

/-- Claim C1, counterexample.  On the spec's example source the pipeline
does not produce the output the spec shows: the parser's statement
dispatch has no case for a bare STRING statement (it logs and skips it),
and the `document` wrapper emits its children without increasing the
indentation, so the actual output is
`<!DOCTYPE html>\n<html>\n<div>\n</div>\n</html>`. -/
theorem C1_counterexample :
    compileSource noEval 50 "document:\n  div:\n    \"Hello\"\n"
      = some "<!DOCTYPE html>\n<html>\n<div>\n</div>\n</html>"
    ∧ ¬ (compileSource noEval 50 "document:\n  div:\n    \"Hello\"\n"
      = some "<!DOCTYPE html>\n<html>\n  <div>\n    Hello\n  </div>\n</html>") := by
  decide!

/-- Claim C1, amended: running the full pipeline on the example source
produces `<!DOCTYPE html>\n<html>\n<div>\n</div>\n</html>` — the quoted
line is dropped by the parser (a bare STRING token is an "unexpected
token" that parses to no node), and the `document` wrapper does not
indent its children, so the `div` starts at column 0 and has no text
content. -/
theorem C1_amended :
    compileSource noEval 50 "document:\n  div:\n    \"Hello\"\n"
      = some "<!DOCTYPE html>\n<html>\n<div>\n</div>\n</html>" := by
  decide!

/-- Claim C2, counterexample.  A for loop over a variable reference bound
to a value that is not in list-literal form does NOT warn-and-skip: the
fallback `items = [raw_value]` in `_compile_for_loop` executes the body
exactly once.  Here `$x` is bound to `hello` and the loop body emits one
output line and no warning. -/
theorem C2_counterexample :
    (crun noEval 10 (.node (.forLoop "item" "$x" [.textContent "hi"]))
        ⟨[], 0, [("$x", "hello")], [], []⟩).map (fun s => (s.output, s.warnings))
      = some (["hi"], []) := by
  decide!

/-- Helper: a non-bracketed raw value yields the singleton item list. -/
theorem forLoopItems_single (raw : String)
    (h : ¬ (pyStartsWith raw "[" ∧ pyEndsWith raw "]")) :
    forLoopItems raw = [raw] := by
  simp only [forLoopItems, if_neg h]

/-- Claim C2, amended.  Of the iterable forms the claim groups together,
only two yield a warning and zero output: a direct (non-`$`) iterable,
and an unbound variable reference.  A variable reference bound to a
non-bracketed value instead falls back to a single-item list: the loop
body is executed exactly once with the iterator bound to the raw value
(and the iterator binding removed afterwards), and no warning is
emitted. -/
theorem C2_amended (ev : EvalOracle) (fuel : Nat) (st : CState)
    (iterator iterable : String) (body : List ASTNode) :
    (pyStartsWith iterable "$" = false →
      crun ev (fuel + 1) (.node (.forLoop iterator iterable body)) st
        = some { st with warnings := st.warnings
            ++ ["Warning: Direct iterables not implemented in for loop: " ++ iterable] })
    ∧ (pyStartsWith iterable "$" = true → dictGet st.vars iterable = none →
      crun ev (fuel + 1) (.node (.forLoop iterator iterable body)) st
        = some { st with warnings := st.warnings
            ++ ["Warning: Unknown variable " ++ iterable ++ " in for loop"] })
    ∧ (∀ raw : String, pyStartsWith iterable "$" = true →
      dictGet st.vars iterable = some raw →
      ¬ (pyStartsWith raw "[" ∧ pyEndsWith raw "]") →
      crun ev (fuel + 3) (.node (.forLoop iterator iterable body)) st
        = (match crun ev (fuel + 1) (.nodes body)
              { st with vars := dictSet st.vars ("$" ++ iterator) raw } with
          | none => none
          | some st2 =>
            some (if dictMem st2.vars ("$" ++ iterator)
              then { st2 with vars := dictDel st2.vars ("$" ++ iterator) } else st2))) := by
  refine ⟨fun h => ?_, fun h hb => ?_, fun raw h hb hnb => ?_⟩
  · simp [crun, h]
  · simp [crun, h, hb]
  · simp [crun, h, hb, forLoopItems_single raw hnb]

/-- Claim C2's witness: the amended theorem applied at a concrete bound,
non-bracketed iterable. -/
theorem C2_witness :
    crun noEval (0 + 3) (.node (.forLoop "item" "$x" [.textContent "hi"]))
        ⟨[], 0, [("$x", "hello")], [], []⟩
      = (match crun noEval (0 + 1) (.nodes [.textContent "hi"])
            { (⟨[], 0, [("$x", "hello")], [], []⟩ : CState) with
              vars := dictSet [("$x", "hello")] ("$" ++ "item") "hello" } with
        | none => none
        | some st2 =>
          some (if dictMem st2.vars ("$" ++ "item")
            then { st2 with vars := dictDel st2.vars ("$" ++ "item") } else st2)) :=
  (C2_amended noEval 0 ⟨[], 0, [("$x", "hello")], [], []⟩ "item" "$x"
    [.textContent "hi"]).2.2 "hello" (by decide) (by decide) (by decide)

/-! ## Claim C6: the component-collection pass -/

/-- Setting a key makes it present. -/
theorem dictMem_dictSet_self {α : Type} (m : List (String × α)) (k : String) (v : α) :
    dictMem (dictSet m k v) k = true := by
  induction m with
  | nil => simp [dictSet, dictMem]
  | cons p rest ih =>
    by_cases h : p.1 = k
    · simp [dictSet, dictMem, h]
    · simp [dictSet, dictMem, h, ih]

/-- Setting any key preserves the presence of every key. -/
theorem dictMem_dictSet_mono {α : Type} (m : List (String × α)) (k k' : String) (v : α)
    (h : dictMem m k = true) : dictMem (dictSet m k' v) k = true := by
  induction m with
  | nil => simp [dictMem] at h
  | cons p rest ih =>
    by_cases h2 : p.1 = k'
    · simp only [dictSet, if_pos h2, dictMem]
      simp only [dictMem] at h
      rcases Bool.or_eq_true_iff.mp h with h3 | h3
      · have : p.1 = k := of_decide_eq_true h3
        simp [← this, h2]
      · simp [h3]
    · simp only [dictSet, if_neg h2, dictMem]
      simp only [dictMem] at h
      rcases Bool.or_eq_true_iff.mp h with h3 | h3
      · simp [h3]
      · simp [ih h3]

/-- `_collect_components` never removes a recorded component. -/
theorem collect_mono (fuel : Nat) :
    ∀ (nodes : List ASTNode) (table : List (String × CompEntry)) (k : String),
    dictMem table k = true → dictMem (collectComponents fuel nodes table) k = true := by
  induction fuel with
  | zero => intro nodes table k h; simpa [collectComponents] using h
  | succ fuel ih =>
    intro nodes table k h
    match nodes with
    | [] => simpa [collectComponents] using h
    | n :: rest =>
      simp only [collectComponents]
      apply ih
      match n with
      | .componentDefinition name ps ds body => exact dictMem_dictSet_mono _ _ _ _ h
      | .element nm attrs children content =>
        by_cases hc : listTruthy children
        · simp only [if_pos hc]; exact ih _ _ _ h
        · simpa [if_neg hc] using h
      | .textContent _ => exact h
      | .variableDeclaration _ _ => exact h
      | .variableReference _ => exact h
      | .forLoop _ _ _ => exact h
      | .conditional _ _ _ => exact h
      | .componentUse _ _ => exact h

/-- A component definition that is a member of the node list itself is
recorded (given enough fuel). -/
theorem collect_mem :
    ∀ (nodes : List ASTNode) (fuel : Nat) (table : List (String × CompEntry))
      (name : String) (ps : List String) (ds : List (String × String)) (body : List ASTNode),
    (ASTNode.componentDefinition name ps ds body) ∈ nodes → sizeOf nodes ≤ fuel →
    dictMem (collectComponents fuel nodes table) name = true := by
  intro nodes
  induction nodes with
  | nil => intro fuel table name ps ds body hmem; cases hmem
  | cons n rest ih =>
    intro fuel table name ps ds body hmem hfuel
    have h1 : 1 + sizeOf n + sizeOf rest ≤ fuel := by
      simpa [List.cons.sizeOf_spec] using hfuel
    obtain ⟨f, rfl⟩ : ∃ f, fuel = f + 1 := ⟨fuel - 1, by omega⟩
    rcases List.mem_cons.mp hmem with heq | htail
    · subst heq
      simp only [collectComponents]
      exact collect_mono f rest _ name (dictMem_dictSet_self _ _ _)
    · simp only [collectComponents]
      have hsz : sizeOf rest ≤ f := by
        have : 0 ≤ sizeOf n := Nat.zero_le _
        omega
      exact ih f _ name ps ds body htail hsz

/-- The nodes `Compiler._collect_components` can reach: a top-level node,
or (recursively) a node inside the children of a reachable element.
Bodies of for-loops, conditionals and component definitions are NOT
reachable — the pass does not descend into them. -/
inductive ECReach : ASTNode → List ASTNode → Prop where
  | top {d : ASTNode} {nodes : List ASTNode} : d ∈ nodes → ECReach d nodes
  | child {d : ASTNode} {nodes : List ASTNode}
      {name : String} {attrs : List (String × AttrVal)}
      {children : List ASTNode} {content : Option String} :
      ASTNode.element name attrs children content ∈ nodes →
      ECReach d children → ECReach d nodes

/-- A list with a reachable node is nonempty (so the `node.children`
truthiness test in the pass succeeds). -/
theorem ECReach_ne_nil {d : ASTNode} {nodes : List ASTNode} (h : ECReach d nodes) :
    listTruthy nodes = true := by
  cases h with
  | top hmem => cases nodes with
    | nil => cases hmem
    | cons _ _ => rfl
  | child hmem _ => cases nodes with
    | nil => cases hmem
    | cons _ _ => rfl

/-- Every component definition reachable through top-level position or
element children is recorded by the collection pass. -/
theorem collect_reach :
    ∀ (d : ASTNode) (nodes : List ASTNode), ECReach d nodes →
    ∀ (name : String) (ps : List String) (ds : List (String × String)) (body : List ASTNode),
    d = ASTNode.componentDefinition name ps ds body →
    ∀ (fuel : Nat) (table : List (String × CompEntry)), sizeOf nodes ≤ fuel →
    dictMem (collectComponents fuel nodes table) name = true := by
  intro d nodes hreach
  induction hreach with
  | top hmem =>
    intro name ps ds body hd fuel table hfuel
    subst hd
    exact collect_mem _ fuel table name ps ds body hmem hfuel
  | child hmem hrec ih =>
    intro name ps ds body hd fuel table hfuel
    subst hd
    induction hmem generalizing fuel table with
    | head rest =>
      rename_i children0 content0
      simp only [List.cons.sizeOf_spec, ASTNode.element.sizeOf_spec] at hfuel
      obtain ⟨f, rfl⟩ : ∃ f, fuel = f + 1 := ⟨fuel - 1, by omega⟩
      simp only [collectComponents, ECReach_ne_nil hrec, if_true]
      exact collect_mono f rest _ _ (ih _ _ _ _ rfl f table (by omega))
    | tail b hmemtail ihm =>
      rename_i rest'
      have h1 : 1 + sizeOf b + sizeOf rest' ≤ fuel := by
        simpa [List.cons.sizeOf_spec] using hfuel
      obtain ⟨f, rfl⟩ : ∃ f, fuel = f + 1 := ⟨fuel - 1, by omega⟩
      simp only [collectComponents]
      exact ihm f _ (by omega)

/-- Claim C6, counterexample.  The collection pass does NOT walk the
bodies of for-loops (nor of conditionals or component definitions): a
`ComponentDefinition` inside a for-loop body is absent from the table,
and a use of it compiles to a warning with no output. -/
theorem C6_counterexample :
    dictMem (collectComponents 10
        [.forLoop "x" "$l" [.componentDefinition "Foo" [] [] []], .componentUse "Foo" []]
        []) "Foo" = false
    ∧ (crun noEval 10 (.node (.componentUse "Foo" []))
        ⟨[], 0, [],
          collectComponents 10
            [.forLoop "x" "$l" [.componentDefinition "Foo" [] [] []], .componentUse "Foo" []]
            [],
          []⟩).map (fun s => (s.output, s.warnings))
      = some ([], ["Warning: Unknown component: Foo"]) := by
  decide!

/-- Claim C6, amended: before any output is emitted, the collection pass
records every `ComponentDefinition` that sits at top level or inside
element children at any depth (so such definitions resolve regardless of
their position relative to their first use); it does not descend into
the bodies of for-loops, conditionals, or component definitions. -/
theorem C6_amended (fuel : Nat) (nodes : List ASTNode) (table : List (String × CompEntry))
    (name : String) (ps : List String) (ds : List (String × String)) (body : List ASTNode)
    (hreach : ECReach (.componentDefinition name ps ds body) nodes)
    (hfuel : sizeOf nodes ≤ fuel) :
    dictMem (collectComponents fuel nodes table) name = true :=
  collect_reach _ _ hreach name ps ds body rfl fuel table hfuel

/-- Claim C6's witness: a definition nested two element levels deep is
recorded. -/
theorem C6_witness :
    dictMem (collectComponents 1000
        [.element "div" [] [.element "p" [] [.componentDefinition "Bar" [] [] []] none] none]
        []) "Bar" = true :=
  C6_amended 1000
    [.element "div" [] [.element "p" [] [.componentDefinition "Bar" [] [] []] none] none]
    [] "Bar" [] [] []
    (ECReach.child (List.Mem.head _)
      (ECReach.child (List.Mem.head _) (ECReach.top (List.Mem.head _))))
    (by decide!)

/-! ## Claim C7: conditional semantics -/

/-- One emission step of a conditional node, written out as a case split
on the oracle's verdict on the substituted condition text. -/
theorem cond_step (ev : EvalOracle) (fuel : Nat) (st : CState)
    (condition : String) (ifBody : List ASTNode) (elseBody : Option (List ASTNode)) :
    crun ev (fuel + 1) (.node (.conditional condition ifBody elseBody)) st
      = (match ev (substCondition st.vars condition) with
        | some true => crun ev fuel (.nodes ifBody) st
        | some false =>
          if bodyTruthy elseBody then crun ev fuel (.nodes (elseBody.getD [])) st
          else some st
        | none =>
          let st1 := { st with warnings := st.warnings
            ++ ["Warning: Failed to evaluate condition "
                ++ substCondition st.vars condition] }
          if bodyTruthy elseBody then crun ev fuel (.nodes (elseBody.getD [])) st1
          else some st1) := by
  cases hev : ev (substCondition st.vars condition) with
  | none => simp [crun, hev]
  | some b => cases b <;> simp [crun, hev]

/-- Claim C7: for every conditional node, the condition text has every
bound variable replaced by its double-quote-wrapped value
(`substCondition`, mirroring `_compile_conditional`'s replace loop); the
oracle models the boolean evaluation: a true result emits exactly the
if-body, a false result the else-body when present (a falsy else-body
emits nothing), and an evaluation failure appends one warning and is
treated as false; in every case the node itself produces `some` (so
compilation of subsequent nodes continues) whenever the selected body
does. -/
theorem C7_conditional_semantics (ev : EvalOracle) (fuel : Nat) (st : CState)
    (condition : String) (ifBody : List ASTNode) (elseBody : Option (List ASTNode)) :
    crun ev (fuel + 1) (.node (.conditional condition ifBody elseBody)) st
      = (match ev (substCondition st.vars condition) with
        | some true => crun ev fuel (.nodes ifBody) st
        | some false =>
          if bodyTruthy elseBody then crun ev fuel (.nodes (elseBody.getD [])) st
          else some st
        | none =>
          let st1 := { st with warnings := st.warnings
            ++ ["Warning: Failed to evaluate condition "
                ++ substCondition st.vars condition] }
          if bodyTruthy elseBody then crun ev fuel (.nodes (elseBody.getD [])) st1
          else some st1) :=
  cond_step ev fuel st condition ifBody elseBody

/-! ## Claim C4: component use save/restore and argument precedence -/

/-- Looking up the key just set yields the new value. -/
theorem dictGet_dictSet_self {α : Type} (m : List (String × α)) (k : String) (v : α) :
    dictGet (dictSet m k v) k = some v := by
  induction m with
  | nil => simp [dictSet, dictGet]
  | cons p rest ih =>
    by_cases h : p.1 = k
    · simp [dictSet, dictGet, h]
    · simp [dictSet, dictGet, h, ih]

/-- Setting a different key does not change a lookup. -/
theorem dictGet_dictSet_ne {α : Type} (m : List (String × α)) (k k' : String) (v : α)
    (h : k ≠ k') : dictGet (dictSet m k' v) k = dictGet m k := by
  have hne : ¬ (k' = k) := fun e => h e.symm
  induction m with
  | nil => simp [dictSet, dictGet, hne]
  | cons p rest ih =>
    by_cases h2 : p.1 = k'
    · have hpk : ¬ (p.1 = k) := fun e => h (h2.symm.trans e).symm
      simp only [dictSet, if_pos h2, dictGet, if_neg hne, if_neg hpk]
    · by_cases h3 : p.1 = k
      · simp only [dictSet, if_neg h2, dictGet, if_pos h3]
      · simp only [dictSet, if_neg h2, dictGet, if_neg h3, ih]

/-- Prefixing `$` to a variable name is injective. -/
theorem dollar_inj (a b : String) (h : "$" ++ a = "$" ++ b) : a = b := by
  have h2 := congrArg String.data h
  simp only [String.data_append] at h2
  cases a; cases b
  exact congrArg String.mk (by simpa using h2)

/-- A key absent from an overlay's argument list keeps its base value. -/
theorem foldSet_get_not_mem (args : List (String × String))
    (base : List (String × String)) (p : String)
    (h : p ∉ args.map Prod.fst) :
    dictGet (args.foldl (fun m q => dictSet m ("$" ++ q.1) q.2) base) ("$" ++ p)
      = dictGet base ("$" ++ p) := by
  induction args generalizing base with
  | nil => rfl
  | cons a rest ih =>
    simp only [List.map_cons, List.mem_cons, not_or] at h
    simp only [List.foldl_cons]
    rw [ih _ h.2, dictGet_dictSet_ne _ _ _ _ (fun e => h.1 (dollar_inj _ _ e))]

/-- A key present (once) in an overlay's argument list gets its value. -/
theorem foldSet_get_mem (args : List (String × String))
    (base : List (String × String)) (p v : String)
    (hnd : (args.map Prod.fst).Nodup) (hmem : (p, v) ∈ args) :
    dictGet (args.foldl (fun m q => dictSet m ("$" ++ q.1) q.2) base) ("$" ++ p)
      = some v := by
  induction args generalizing base with
  | nil => cases hmem
  | cons a rest ih =>
    simp only [List.map_cons, List.nodup_cons] at hnd
    rcases List.mem_cons.mp hmem with heq | htail
    · subst heq
      simp only [List.foldl_cons]
      rw [foldSet_get_not_mem rest _ p hnd.1, dictGet_dictSet_self]
    · simp only [List.foldl_cons]
      exact ih _ hnd.2 htail

/-- Claim C4: for a component use whose name is in the table, (1) the use
compiles the body in the environment obtained by overlaying first the
defaults and then the supplied arguments onto the saved environment, and
restores the saved environment afterwards; (2) hence the variable
environment after the use equals the environment before it, whatever
bindings the defaults, arguments, or body declarations introduced; and
(3) during the body's emission a parameter given both a default and a
supplied argument is bound to the argument's value (arguments win). -/
theorem C4_component_use (ev : EvalOracle) (fuel : Nat) (st : CState)
    (name : String) (arguments : List (String × String)) (entry : CompEntry)
    (hct : dictGet st.components name = some entry) :
    (crun ev (fuel + 1) (.node (.componentUse name arguments)) st
      = (match crun ev fuel (.nodes entry.body)
            { st with vars := componentEnv st.vars entry.defaultValues arguments } with
        | none => none
        | some st2 => some { st2 with vars := st.vars }))
    ∧ (∀ st' : CState,
        crun ev (fuel + 1) (.node (.componentUse name arguments)) st = some st' →
        st'.vars = st.vars)
    ∧ (∀ (p v dv : String), (arguments.map Prod.fst).Nodup →
        (p, v) ∈ arguments → (p, dv) ∈ entry.defaultValues →
        dictGet (componentEnv st.vars entry.defaultValues arguments) ("$" ++ p)
          = some v) := by
  have heq : crun ev (fuel + 1) (.node (.componentUse name arguments)) st
      = (match crun ev fuel (.nodes entry.body)
            { st with vars := componentEnv st.vars entry.defaultValues arguments } with
        | none => none
        | some st2 => some { st2 with vars := st.vars }) := by
    simp [crun, hct]
  refine ⟨heq, fun st' hsome => ?_, fun p v dv hnd hmem hdv => ?_⟩
  · rw [heq] at hsome
    match h2 : crun ev fuel (.nodes entry.body)
        { st with vars := componentEnv st.vars entry.defaultValues arguments } with
    | none => rw [h2] at hsome; cases hsome
    | some st2 =>
      rw [h2] at hsome
      cases hsome
      rfl
  · exact foldSet_get_mem arguments _ p v hnd hmem

/-- Claim C4's witness: a component with default `color="blue"`, used
with `color="red"` while `$color` is bound to `green` outside, renders
`red` and restores `green` afterwards. -/
theorem C4_witness :
    (⟨["red"], 0, [("$color", "green")],
      [("Card", ⟨["color"], [("color", "blue")], [.textContent "$color"]⟩)], []⟩
        : CState).vars
      = (⟨[], 0, [("$color", "green")],
          [("Card", ⟨["color"], [("color", "blue")], [.textContent "$color"]⟩)], []⟩
            : CState).vars
    ∧ dictGet (componentEnv [("$color", "green")] [("color", "blue")] [("color", "red")])
        ("$" ++ "color") = some "red" :=
  ⟨(C4_component_use noEval 3
      ⟨[], 0, [("$color", "green")],
        [("Card", ⟨["color"], [("color", "blue")], [.textContent "$color"]⟩)], []⟩
      "Card" [("color", "red")]
      ⟨["color"], [("color", "blue")], [.textContent "$color"]⟩ rfl).2.1
    ⟨["red"], 0, [("$color", "green")],
      [("Card", ⟨["color"], [("color", "blue")], [.textContent "$color"]⟩)], []⟩
    (by rfl),
   (C4_component_use noEval 3
      ⟨[], 0, [("$color", "green")],
        [("Card", ⟨["color"], [("color", "blue")], [.textContent "$color"]⟩)], []⟩
      "Card" [("color", "red")]
      ⟨["color"], [("color", "blue")], [.textContent "$color"]⟩ rfl).2.2
    "color" "red" "blue" (by decide) (by decide) (by decide)⟩

/-! ## Claim C9: for-loop iterator cleanup -/

/-- Deleting a key removes it. -/
theorem dictMem_dictDel {α : Type} (m : List (String × α)) (k : String) :
    dictMem (dictDel m k) k = false := by
  induction m with
  | nil => rfl
  | cons p rest ih =>
    by_cases h : p.1 = k
    · simp [dictDel, h, ih]
    · simp [dictDel, dictMem, h, ih]

/-- Mapping does not change Python-truthiness of a list. -/
theorem listTruthy_map {α β : Type} (f : α → β) (l : List α) :
    listTruthy (l.map f) = listTruthy l := by
  cases l <;> rfl

/-- Python `split` never returns an empty list. -/
theorem splitChar_truthy (c : Char) (l : List Char) :
    listTruthy (splitChar c l) = true := by
  cases l with
  | nil => rfl
  | cons x rest =>
    simp only [splitChar]
    rcases h : splitChar c rest with _ | ⟨cur, others⟩
    · rfl
    · by_cases hx : x = c <;> simp [hx, listTruthy]

/-- The item list of a bound iterable is never empty: bracketed values
split into at least one chunk, and the fallback is a singleton. -/
theorem forLoopItems_truthy (raw : String) :
    listTruthy (forLoopItems raw) = true := by
  unfold forLoopItems
  by_cases h : pyStartsWith raw "[" ∧ pyEndsWith raw "]"
  · rw [if_pos h]
    by_cases h2 : ((splitChar ',' ((raw.data.drop 1).dropLast)).map
        (fun l => pyStrip (String.mk l))).all
          (fun item => pyStartsWith item "\"" ∧ pyEndsWith item "\"")
    · rw [if_pos h2, listTruthy_map, listTruthy_map]
      exact splitChar_truthy _ _
    · rw [if_neg h2, listTruthy_map]
      exact splitChar_truthy _ _
  · rw [if_neg h]
    rfl

/-- After the per-item loop runs at least one iteration, the iterator's
variable is absent from the environment (each iteration ends with the
`del`-if-present cleanup, and the empty-list call leaves the state
unchanged). -/
theorem forItems_result (ev : EvalOracle) :
    ∀ (fuel : Nat) (iterator : String) (body : List ASTNode) (items : List String)
      (st st' : CState),
    crun ev fuel (.forItems iterator body items) st = some st' →
    (items = [] → st' = st) ∧
    (listTruthy items = true → dictMem st'.vars ("$" ++ iterator) = false) := by
  intro fuel
  induction fuel with
  | zero => intro it body items st st' h; cases h
  | succ fuel ih =>
    intro it body items st st' h
    match items with
    | [] =>
      simp only [crun] at h
      exact ⟨fun _ => (Option.some.inj h).symm, fun ht => by simp [listTruthy] at ht⟩
    | item :: rest =>
      refine ⟨(fun he => by simp at he), fun _ => ?_⟩
      simp only [crun] at h
      split at h
      · cases h
      · rename_i st2 h2
        rcases rest with _ | ⟨r, rest'⟩
        · have hst : st' = (if dictMem st2.vars ("$" ++ it)
              then { st2 with vars := dictDel st2.vars ("$" ++ it) } else st2) :=
            (ih it body [] _ st' h).1 rfl
          rw [hst]
          by_cases hm : dictMem st2.vars ("$" ++ it)
          · simp only [if_pos hm]
            exact dictMem_dictDel _ _
          · simp only [if_neg hm]
            simpa using hm
        · exact (ih it body (r :: rest') _ st' h).2 rfl

/-- Claim C9: when a for loop over a bound variable reference completes
(it then always runs at least one iteration, since the item list of a
bound iterable is never empty), the iterator's variable name is absent
from the environment afterwards — a pre-existing binding of that name is
deleted by the per-iteration cleanup, not restored. -/
theorem C9_iterator_deleted (ev : EvalOracle) (fuel : Nat) (st st' : CState)
    (iterator iterable raw : String) (body : List ASTNode)
    (hs : pyStartsWith iterable "$" = true)
    (hb : dictGet st.vars iterable = some raw)
    (h : crun ev (fuel + 1) (.node (.forLoop iterator iterable body)) st = some st') :
    dictMem st'.vars ("$" ++ iterator) = false := by
  simp only [crun, hs, hb] at h
  exact (forItems_result ev fuel iterator body (forLoopItems raw) st st' h).2
    (forLoopItems_truthy raw)

/-- Claim C9's witness: `$item` was bound to `old` before the loop and is
gone afterwards (not restored to `old`). -/
theorem C9_witness :
    dictMem (⟨["hi"], 0, [("$x", "hello")], [], []⟩ : CState).vars ("$" ++ "item")
      = false :=
  C9_iterator_deleted noEval 3 ⟨[], 0, [("$item", "old"), ("$x", "hello")], [], []⟩
    ⟨["hi"], 0, [("$x", "hello")], [], []⟩ "item" "$x" "hello" [.textContent "hi"]
    (by decide) (by rfl) (by rfl)

/-! ## Claims C8 and C10: append-only output and fixed attribute text -/


theorem modifyLast_append_single (f : String → String) (l : List String) (x : String) :
    modifyLast f (l ++ [x]) = l ++ [f x] := by
  induction l with
  | nil => rfl
  | cons a rest ih =>
    cases rest with
    | nil => rfl
    | cons b rest' =>
      show a :: modifyLast f ((b :: rest') ++ [x]) = a :: ((b :: rest') ++ [f x])
      rw [ih]

theorem crun_output_extends (ev : EvalOracle) :
    ∀ (fuel : Nat) (cmd : CCmd) (st st' : CState),
    crun ev fuel cmd st = some st' → ∃ t, st'.output = st.output ++ t := by
  intro fuel
  induction fuel with
  | zero => intro cmd st st' h; cases h
  | succ fuel ih =>
    intro cmd st st' h
    match cmd with
    | .nodes ns =>
      match ns with
      | [] =>
        simp only [crun] at h
        obtain rfl := Option.some.inj h
        exact ⟨[], by simp⟩
      | n :: rest =>
        simp only [crun] at h
        split at h
        · cases h
        · rename_i stm h2
          obtain ⟨t1, ht1⟩ := ih _ _ _ h2
          obtain ⟨t2, ht2⟩ := ih _ _ _ h
          exact ⟨t1 ++ t2, by rw [ht2, ht1, List.append_assoc]⟩
    | .forItems it body items =>
      match items with
      | [] =>
        simp only [crun] at h
        obtain rfl := Option.some.inj h
        exact ⟨[], by simp⟩
      | item :: rest =>
        simp only [crun] at h
        split at h
        · cases h
        · rename_i st2 h2
          obtain ⟨t1, ht1⟩ := ih _ _ _ h2
          obtain ⟨t2, ht2⟩ := ih _ _ _ h
          refine ⟨t1 ++ t2, ?_⟩
          rw [ht2]
          have h3 : (if dictMem st2.vars ("$" ++ it)
              then { st2 with vars := dictDel st2.vars ("$" ++ it) } else st2).output
              = st2.output := by split <;> rfl
          rw [h3, ht1, List.append_assoc]
    | .node n =>
      match n with
      | .textContent value =>
        simp only [crun] at h
        obtain rfl := Option.some.inj h
        exact ⟨_, rfl⟩
      | .variableDeclaration name value =>
        simp only [crun] at h
        obtain rfl := Option.some.inj h
        exact ⟨[], by simp⟩
      | .variableReference name =>
        simp only [crun] at h
        obtain rfl := Option.some.inj h
        exact ⟨[], by simp⟩
      | .componentDefinition name ps ds body =>
        simp only [crun] at h
        obtain rfl := Option.some.inj h
        exact ⟨[], by simp⟩
      | .componentUse name arguments =>
        simp only [crun] at h
        split at h
        · obtain rfl := Option.some.inj h
          exact ⟨[], by simp⟩
        · split at h
          · cases h
          · rename_i st2 h2
            obtain rfl := Option.some.inj h
            obtain ⟨t1, ht1⟩ := ih _ _ _ h2
            exact ⟨t1, ht1⟩
      | .forLoop iterator iterable body =>
        simp only [crun] at h
        split at h
        · split at h
          · exact ih _ _ _ h
          · obtain rfl := Option.some.inj h
            exact ⟨[], by simp⟩
        · obtain rfl := Option.some.inj h
          exact ⟨[], by simp⟩
      | .conditional condition ifBody elseBody =>
        rw [cond_step] at h
        rcases hev : ev (substCondition st.vars condition) with _ | b
        · rw [hev] at h
          dsimp only at h
          split at h
          · obtain ⟨t, ht⟩ := ih _ _ _ h
            exact ⟨t, ht⟩
          · obtain rfl := Option.some.inj h
            exact ⟨[], by simp⟩
        · rw [hev] at h
          cases b
          · dsimp only at h
            split at h
            · exact ih _ _ _ h
            · obtain rfl := Option.some.inj h
              exact ⟨[], by simp⟩
          · exact ih _ _ _ h
      | .element name attributes children content =>
        simp only [crun] at h
        split at h
        · split at h
          · cases h
          · rename_i st2 h2
            obtain rfl := Option.some.inj h
            obtain ⟨t1, ht1⟩ := ih _ _ _ h2
            exact ⟨"<!DOCTYPE html>" :: "<html>" :: (t1 ++ ["</html>"]), by
              simp only [ht1]
              simp [List.append_assoc]⟩
        · split at h
          · rcases hfc : findSpecialContent children with _ | mc
            · rw [hfc] at h
              dsimp only at h
              obtain rfl := Option.some.inj h
              exact ⟨_, by simp only [List.append_assoc]; rfl⟩
            · rw [hfc] at h
              dsimp only at h
              by_cases hne : mc ≠ ""
              · rw [if_pos hne] at h
                obtain rfl := Option.some.inj h
                exact ⟨_, by simp only [List.append_assoc]; rfl⟩
              · rw [if_neg hne] at h
                obtain rfl := Option.some.inj h
                exact ⟨_, by simp only [List.append_assoc]; rfl⟩
          · split at h
            · obtain rfl := Option.some.inj h
              have hm := modifyLast_append_single
                (fun last => String.mk last.data.dropLast ++ ">"
                  ++ replaceVariables st.vars (content.getD "") ++ "</" ++ name ++ ">")
                st.output (openTagLine st.indentation name (compileAttributes attributes))
              exact ⟨_, hm⟩
            · split at h
              · cases h
              · rename_i st2 h2
                have ht1 : ∃ t1, st2.output = st.output ++ t1 := by
                  split at h2
                  · split at h2
                    · cases h2
                    · rename_i st3 h3
                      obtain rfl := Option.some.inj h2
                      obtain ⟨t1, ht1⟩ := ih _ _ _ h3
                      refine ⟨[openTagLine st.indentation name (compileAttributes attributes)]
                        ++ t1, ?_⟩
                      show st3.output = _
                      rw [ht1]
                      simp only [List.append_assoc]
                  · obtain rfl := Option.some.inj h2
                    exact ⟨_, rfl⟩
                obtain ⟨t1, ht1⟩ := ht1
                split at h
                · obtain rfl := Option.some.inj h
                  refine ⟨t1 ++ [indentStr st2.indentation ++ "</" ++ name ++ ">"], ?_⟩
                  show st2.output ++ _ = _
                  rw [ht1, List.append_assoc]
                · obtain rfl := Option.some.inj h
                  exact ⟨t1, ht1⟩

/-- Claim C8: emission is append-only.  For every emission step — a
single node, a node sequence, or a loop iteration batch — the output
line sequence before the step is an unchanged prefix of the sequence
after it: no step removes a line or changes a line appended by an
earlier step (the one in-place edit, inline content, rewrites only the
opening-tag line appended within the same element's step). -/
theorem C8_output_append_only (ev : EvalOracle) (fuel : Nat) (cmd : CCmd)
    (st st' : CState) (h : crun ev fuel cmd st = some st') :
    ∃ t, st'.output = st.output ++ t :=
  crun_output_extends ev fuel cmd st st' h

/-- Claim C8's witness: emitting a text node extends the prior output. -/
theorem C8_witness :
    ∃ t, (⟨["pre", "hi"], 0, [], [], []⟩ : CState).output
      = (⟨["pre"], 0, [], [], []⟩ : CState).output ++ t :=
  C8_output_append_only noEval 1 (.node (.textContent "hi"))
    ⟨["pre"], 0, [], [], []⟩ ⟨["pre", "hi"], 0, [], [], []⟩ (by rfl)

/-- Appending the empty string is the identity. -/
theorem str_append_empty (s : String) : s ++ "" = s := by
  cases s with
  | mk l =>
    show String.mk (l ++ []) = String.mk l
    rw [List.append_nil]

/-- Rebuilding a string from its characters is the identity. -/
theorem mk_data (s : String) : String.mk s.data = s := by
  cases s; rfl

/-- String concatenation is associative. -/
theorem str_append_assoc (a b c : String) : (a ++ b) ++ c = a ++ (b ++ c) := by
  cases a with
  | mk x =>
    cases b with
    | mk y =>
      cases c with
      | mk z =>
        show String.mk ((x ++ y) ++ z) = String.mk (x ++ (y ++ z))
        rw [List.append_assoc]

/-- Dropping and re-appending the final `>` of a tag line is the
identity (the in-place content edit of `_compile_element`). -/
theorem strEndGt (s : String) :
    String.mk ((s ++ ">").data).dropLast ++ ">" = s ++ ">" := by
  have h1 : (s ++ ">").data = s.data ++ ['>'] := by simp [String.data_append]
  have h2 : (s.data ++ ['>']).dropLast = s.data := by simp
  rw [h1, h2, mk_data]

/-- Every opening-tag line ends in `>`. -/
theorem openTag_split (i : Nat) (n a : String) :
    ∃ p, openTagLine i n a = p ++ ">" := by
  unfold openTagLine
  split
  · exact ⟨_, rfl⟩
  · exact ⟨_, rfl⟩

/-- Claim C10: emitted attribute text is fixed at parse time.  For every
non-document element, the opening line the emission step appends starts
with `openTagLine st.indentation name (compileAttributes attributes)` —
a function of the parsed attribute mapping and the indentation counter
only, with no variable-environment argument (`_compile_attributes`
performs no substitution).  Hence two emission states that agree on the
indentation produce identical attribute text for the same element node,
whatever their variable environments: bindings created during emission
never appear in attribute values, only the parse-time substitutions of
`_parse_attributes` (which used the parser's registry) do. -/
theorem C10_attributes_fixed (ev : EvalOracle) (fuel : Nat) (st st' : CState)
    (name : String) (attributes : List (String × AttrVal))
    (children : List ASTNode) (content : Option String)
    (hname : ¬ name = "document")
    (h : crun ev (fuel + 1) (.node (.element name attributes children content)) st
      = some st') :
    ∃ (s : String) (rest : List String), st'.output
      = st.output ++ (openTagLine st.indentation name (compileAttributes attributes) ++ s)
          :: rest := by
  simp only [crun] at h
  rw [if_neg hname] at h
  by_cases hss : name = "style" ∨ name = "script"
  · rw [if_pos hss] at h
    rcases hfc : findSpecialContent children with _ | mc
    · rw [hfc] at h
      dsimp only at h
      obtain rfl := Option.some.inj h
      refine ⟨"", [indentStr st.indentation ++ "</" ++ name ++ ">"], ?_⟩
      rw [str_append_empty]
      simp [List.append_assoc]
    · rw [hfc] at h
      dsimp only at h
      by_cases hne : mc ≠ ""
      · rw [if_pos hne] at h
        dsimp only at h
        obtain rfl := Option.some.inj h
        refine ⟨"", ((splitChar '\n' mc.data).map
            (fun l => indentStr (st.indentation + 2) ++ String.mk l))
          ++ [indentStr st.indentation ++ "</" ++ name ++ ">"], ?_⟩
        rw [str_append_empty]
        simp [List.append_assoc]
      · rw [if_neg hne] at h
        dsimp only at h
        obtain rfl := Option.some.inj h
        refine ⟨"", [indentStr st.indentation ++ "</" ++ name ++ ">"], ?_⟩
        rw [str_append_empty]
        simp [List.append_assoc]
  · rw [if_neg hss] at h
    by_cases hct : contentTruthy content
    · rw [if_pos hct] at h
      obtain rfl := Option.some.inj h
      obtain ⟨p, hp⟩ := openTag_split st.indentation name (compileAttributes attributes)
      have hm := modifyLast_append_single
        (fun last => String.mk last.data.dropLast ++ ">"
          ++ replaceVariables st.vars (content.getD "") ++ "</" ++ name ++ ">")
        st.output (openTagLine st.indentation name (compileAttributes attributes))
      refine ⟨replaceVariables st.vars (content.getD "") ++ "</" ++ name ++ ">", [], ?_⟩
      show modifyLast _ _ = _
      rw [hm]
      have hedit : String.mk
            (openTagLine st.indentation name (compileAttributes attributes)).data.dropLast
            ++ ">" ++ replaceVariables st.vars (content.getD "") ++ "</" ++ name ++ ">"
          = openTagLine st.indentation name (compileAttributes attributes)
            ++ (replaceVariables st.vars (content.getD "") ++ "</" ++ name ++ ">") := by
        rw [hp, strEndGt]
        simp only [str_append_assoc]
      show st.output ++ [String.mk
          (openTagLine st.indentation name (compileAttributes attributes)).data.dropLast
          ++ ">" ++ replaceVariables st.vars (content.getD "") ++ "</" ++ name ++ ">"] = _
      rw [hedit]
    · rw [if_neg hct] at h
      split at h
      · cases h
      · rename_i st2 h2
        have ht2 : ∃ t2, st2.output
            = (st.output
                ++ [openTagLine st.indentation name (compileAttributes attributes)]) ++ t2 := by
          split at h2
          · split at h2
            · cases h2
            · rename_i st3 h3
              obtain rfl := Option.some.inj h2
              obtain ⟨t, ht⟩ := crun_output_extends ev fuel _ _ _ h3
              exact ⟨t, ht⟩
          · obtain rfl := Option.some.inj h2
            exact ⟨[], by simp⟩
        obtain ⟨t2, ht2⟩ := ht2
        split at h
        · obtain rfl := Option.some.inj h
          refine ⟨"", t2 ++ [indentStr st2.indentation ++ "</" ++ name ++ ">"], ?_⟩
          rw [str_append_empty]
          show st2.output ++ _ = _
          rw [ht2]
          simp [List.append_assoc]
        · obtain rfl := Option.some.inj h
          refine ⟨"", t2, ?_⟩
          rw [str_append_empty, ht2]
          simp [List.append_assoc]

/-- Claim C10's witness: a concrete element whose opening line carries
exactly the parse-time attribute text. -/
theorem C10_witness :
    ∃ (s : String) (rest : List String),
      (⟨["<p class=\"big\">", "</p>"], 0, [("$v", "x")], [], []⟩ : CState).output
        = (⟨[], 0, [("$v", "x")], [], []⟩ : CState).output
          ++ (openTagLine 0 "p" (compileAttributes [("class", .str "big")]) ++ s) :: rest :=
  C10_attributes_fixed noEval 0 ⟨[], 0, [("$v", "x")], [], []⟩
    ⟨["<p class=\"big\">", "</p>"], 0, [("$v", "x")], [], []⟩
    "p" [("class", .str "big")] [] none (by decide) (by rfl)

/-! ## Lexer invariant theorems (claims C3 and C5) -/

theorem countTok_append (tt : TokenType) (a b : List Token) :
    countTok tt (a ++ b) = countTok tt a + countTok tt b :=
  List.countP_append _ _ _

theorem countTok_single (tt : TokenType) (tok : Token) :
    countTok tt [tok] = if tok.type = tt then 1 else 0 := by
  by_cases h : tok.type = tt <;> simp [countTok, List.countP_cons, h]

theorem countTok_single_eq (tt : TokenType) (tok : Token) (h : tok.type = tt) :
    countTok tt [tok] = 1 := by simp [countTok, List.countP_cons, h]

theorem countTok_single_ne (tt : TokenType) (tok : Token) (h : ¬ tok.type = tt) :
    countTok tt [tok] = 0 := by simp [countTok, List.countP_cons, h]


/-- Appending non-INDENT/DEDENT tokens (stack unchanged) preserves `Ilex`. -/
theorem Ilex_append (st st' : LexState) (ts : List Token)
    (htok : st'.tokens = st.tokens ++ ts)
    (hst : st'.indentStack = st.indentStack)
    (hni : ∀ t ∈ ts, t.type ≠ .INDENT ∧ t.type ≠ .DEDENT)
    (h : Ilex st) : Ilex st' := by
  obtain ⟨hshape, hcount⟩ := h
  refine ⟨hst ▸ hshape, ?_⟩
  rw [htok, hst, countTok_append, countTok_append]
  have hi : countTok .INDENT ts = 0 := by
    simp only [countTok]
    rw [List.countP_eq_zero]
    intro t ht
    simpa using (hni t ht).1
  have hd : countTok .DEDENT ts = 0 := by
    simp only [countTok]
    rw [List.countP_eq_zero]
    intro t ht
    simpa using (hni t ht).2
  omega

/-- `skipWhile` never moves backwards. -/
theorem skipWhile_ge (p : Char → Bool) (s : Array Char) :
    ∀ (fuel pos : Nat), pos ≤ skipWhile p s fuel pos := by
  intro fuel
  induction fuel with
  | zero => intro pos; simp [skipWhile]
  | succ fuel ih =>
    intro pos
    simp only [skipWhile]
    by_cases h1 : pos < s.size
    · by_cases h2 : p (charAt s pos)
      · simp only [if_pos h1, if_pos h2]
        exact Nat.le_trans (Nat.le_succ pos) (ih (pos + 1))
      · simp [if_pos h1, if_neg h2]
    · simp [if_neg h1]

/-- One guaranteed step of `skipWhile` when the head matches. -/
theorem skipWhile_succ (p : Char → Bool) (s : Array Char) (fuel pos : Nat)
    (hf : 0 < fuel) (hpos : pos < s.size) (hp : p (charAt s pos) = true) :
    pos + 1 ≤ skipWhile p s fuel pos := by
  obtain ⟨f, rfl⟩ : ∃ f, fuel = f + 1 := ⟨fuel - 1, by omega⟩
  simp only [skipWhile, if_pos hpos, hp, if_true]
  exact skipWhile_ge p s f (pos + 1)

/-- A successful string scan ends at or after its start. -/
theorem scanStringEnd_ge (s : Array Char) (q : Char) :
    ∀ (fuel pos line col epos eline ecol : Nat),
    scanStringEnd s q fuel pos line col = some (epos, eline, ecol) → pos ≤ epos := by
  intro fuel
  induction fuel with
  | zero => intro pos line col epos eline ecol h; cases h
  | succ fuel ih =>
    intro pos line col epos eline ecol h
    simp only [scanStringEnd] at h
    by_cases h1 : pos < s.size
    · rw [if_pos h1] at h
      split at h
      · obtain ⟨rfl, _⟩ := Prod.mk.injEq .. ▸ (Option.some.inj h)
        exact Nat.le_refl _
      · split at h
        · exact Nat.le_trans (Nat.le_succ pos) (ih _ _ _ _ _ _ h)
        · exact Nat.le_trans (Nat.le_succ pos) (ih _ _ _ _ _ _ h)
    · rw [if_neg h1] at h
      cases h


/-- A successful multiline scan ends at or after its start. -/
theorem scanTripleEnd_ge (s : Array Char) :
    ∀ (fuel pos line col epos eline ecol : Nat),
    scanTripleEnd s fuel pos line col = some (epos, eline, ecol) → pos ≤ epos := by
  intro fuel
  induction fuel with
  | zero => intro pos line col epos eline ecol h; cases h
  | succ fuel ih =>
    intro pos line col epos eline ecol h
    simp only [scanTripleEnd] at h
    by_cases h1 : pos < s.size - 2
    · rw [if_pos h1] at h
      split at h
      · obtain ⟨rfl, _⟩ := Prod.mk.injEq .. ▸ (Option.some.inj h)
        exact Nat.le_refl _
      · split at h
        · exact Nat.le_trans (Nat.le_succ pos) (ih _ _ _ _ _ _ h)
        · exact Nat.le_trans (Nat.le_succ pos) (ih _ _ _ _ _ _ h)
    · rw [if_neg h1] at h
      cases h

/-- Transfer of `Ilex` along equal token lists and stacks. -/
theorem Ilex_eq (st st' : LexState)
    (h1 : st'.tokens = st.tokens) (h2 : st'.indentStack = st.indentStack)
    (h : Ilex st) : Ilex st' := by
  obtain ⟨a, b⟩ := h
  exact ⟨h2 ▸ a, by rw [h1, h2]; exact b⟩

/-- What the pop/emit loop of the dedent branch produces: a well-formed
remaining stack, one DEDENT per popped level, and nothing else. -/
theorem popLevels_spec (indent line col : Nat) :
    ∀ (l : List Nat), (∀ x ∈ l, 0 < x) →
    (∃ l', (popLevels indent line col (l ++ [0])).1 = l' ++ [0] ∧ ∀ x ∈ l', 0 < x) ∧
    (popLevels indent line col (l ++ [0])).1.length
      + (popLevels indent line col (l ++ [0])).2.length = (l ++ [0]).length ∧
    (∀ t ∈ (popLevels indent line col (l ++ [0])).2, t.type = .DEDENT) := by
  intro l
  induction l with
  | nil =>
    intro _
    simp only [List.nil_append, popLevels]
    rw [if_neg (by omega)]
    exact ⟨⟨[], rfl, by simp⟩, by simp, by simp⟩
  | cons x rest ih =>
    intro hpos
    simp only [List.cons_append, popLevels]
    by_cases hx : indent < x
    · rw [if_pos hx]
      obtain ⟨⟨l', hl', hl'pos⟩, hlen, hded⟩ := ih (fun y hy => hpos y (List.mem_cons_of_mem _ hy))
      refine ⟨⟨l', hl', hl'pos⟩, ?_, ?_⟩
      · simp only [List.length_cons, List.append_eq] at *
        omega
      · intro t ht
        rcases List.mem_cons.mp ht with rfl | ht2
        · rfl
        · exact hded t ht2
    · rw [if_neg hx]
      exact ⟨⟨x :: rest, rfl, hpos⟩, by simp, by simp⟩


/-- `_handle_indentation` either succeeds — not moving backwards, not
touching the source, and preserving `Ilex` — or raises the
inconsistent-indentation error. -/
theorem handleIndentation_spec (st : LexState) :
    (∃ st', handleIndentation st = .ok st' ∧ st.position ≤ st'.position
      ∧ st'.source = st.source ∧ (Ilex st → Ilex st'))
    ∨ handleIndentation st = .error .inconsistentIndent := by
  have hge := skipWhile_ge (fun c => pyIsSpace c ∧ c ≠ '\n') st.source (st.source.size + 1)
    st.position
  unfold handleIndentation
  dsimp only
  split
  · exact .inl ⟨_, rfl, hge, rfl, Ilex_eq _ _ rfl rfl⟩
  · split
    · -- increased indentation: push a level and emit one INDENT
      rename_i hgt
      left
      refine ⟨_, rfl, hge, rfl, fun hI => ?_⟩
      obtain ⟨⟨l, hl, hp⟩, hc⟩ := hI
      unfold Ilex
      dsimp only [advanceTo] at hgt ⊢
      rw [hl] at hgt hc ⊢
      generalize skipWhile (fun c => pyIsSpace c ∧ c ≠ '\n') st.source
        (st.source.size + 1) st.position - st.position = ind at hgt ⊢
      refine ⟨⟨ind :: l, rfl, fun x hx => ?_⟩, ?_⟩
      · rcases List.mem_cons.mp hx with rfl | hx2
        · exact Nat.lt_of_le_of_lt (Nat.zero_le _) hgt
        · exact hp x hx2
      · have e1 : countTok TokenType.INDENT
            [⟨TokenType.INDENT, indentStr ind, st.line, st.position + 1⟩] = 1 := rfl
        have e2 : countTok TokenType.DEDENT
            [⟨TokenType.INDENT, indentStr ind, st.line, st.position + 1⟩] = 0 := rfl
        rw [countTok_append, countTok_append, e1, e2]
        simp only [List.length_cons, List.length_append, List.length_nil] at hc ⊢
        omega
    · split
      · -- decreased indentation: pop levels, emitting one DEDENT each
        split
        · right; rfl
        · left
          refine ⟨_, rfl, hge, rfl, fun hI => ?_⟩
          obtain ⟨⟨l, hl, hp⟩, hc⟩ := hI
          unfold Ilex
          dsimp only [advanceTo]
          generalize skipWhile (fun c => pyIsSpace c ∧ c ≠ '\n') st.source
            (st.source.size + 1) st.position - st.position = ind
          have hspec := popLevels_spec ind st.line (st.position + 1) l hp
          rw [← hl] at hspec
          obtain ⟨⟨l', hl', hp'⟩, hlen, hded⟩ := hspec
          refine ⟨⟨l', hl', hp'⟩, ?_⟩
          rw [countTok_append, countTok_append]
          have hi0 : countTok .INDENT
              (popLevels ind st.line (st.position + 1) st.indentStack).2 = 0 := by
            simp only [countTok]
            rw [List.countP_eq_zero]
            intro t ht
            have := hded t ht
            simp [this]
          have hd0 : countTok .DEDENT
              (popLevels ind st.line (st.position + 1) st.indentStack).2
              = (popLevels ind st.line (st.position + 1) st.indentStack).2.length := by
            simp only [countTok]
            rw [List.countP_eq_length]
            intro t ht
            simp [hded t ht]
          rw [hi0, hd0]
          have h1 : 1 ≤ (popLevels ind st.line (st.position + 1) st.indentStack).1.length := by
            rw [hl']
            simp
          have h2 : 1 ≤ st.indentStack.length := by rw [hl]; simp
          omega
      · exact .inl ⟨_, rfl, hge, rfl, Ilex_eq _ _ rfl rfl⟩



theorem LexOk_Ilex (st st' : LexState) (h : LexOk st st') : Ilex st → Ilex st' := by
  obtain ⟨_, _, hst, ts, htok, hni⟩ := h
  exact Ilex_append st st' ts htok hst hni

theorem ebind_ok {α β : Type} (a : α) (f : α → Except LexError β) :
    (Except.ok a >>= f) = f a := rfl

theorem ebind_err {α β : Type} (e : LexError) (f : α → Except LexError β) :
    ((Except.error e : Except LexError α) >>= f) = .error e := rfl

theorem tokenizeComment_lexOk (st : LexState)
    (h1 : st.position < st.source.size)
    (h2 : charAt st.source st.position = '#') :
    LexOk st (tokenizeComment st) := by
  refine ⟨?_, rfl, rfl, _, rfl, ?_⟩
  · exact skipWhile_succ (fun c => c ≠ '\n') st.source (st.source.size + 1)
      st.position (by omega) h1 (by simp [h2])
  · intro t ht
    rw [List.mem_singleton] at ht
    subst ht
    exact ⟨by simp, by simp⟩

theorem tokenizeMultilineString_error (st : LexState) (e : LexError)
    (h : tokenizeMultilineString st = .error e) : e = .unterminatedMultiline := by
  unfold tokenizeMultilineString at h
  dsimp only at h
  split at h
  · injection h with h2; exact h2.symm
  · cases h

theorem tokenizeMultilineString_lexOk (st st' : LexState)
    (h : tokenizeMultilineString st = .ok st') : LexOk st st' := by
  unfold tokenizeMultilineString at h
  dsimp only [advanceTo] at h
  split at h
  · cases h
  · rename_i pos line col hscan
    injection h with h2
    subst h2
    have hge := scanTripleEnd_ge st.source _ _ _ _ _ _ _ hscan
    refine ⟨by dsimp only [advanceTo]; omega, rfl, rfl, _, rfl, ?_⟩
    intro t ht
    rw [List.mem_singleton] at ht
    subst ht
    exact ⟨by simp, by simp⟩

theorem tokenizeString_error (st : LexState) (e : LexError)
    (h : tokenizeString st = .error e) : e = .unterminatedString := by
  unfold tokenizeString at h
  dsimp only at h
  split at h
  · injection h with h2; exact h2.symm
  · cases h

theorem tokenizeString_lexOk (st st' : LexState)
    (h : tokenizeString st = .ok st') : LexOk st st' := by
  unfold tokenizeString at h
  dsimp only [advanceTo] at h
  split at h
  · cases h
  · rename_i pos line col hscan
    injection h with h2
    subst h2
    have hge := scanStringEnd_ge st.source _ _ _ _ _ _ _ _ hscan
    refine ⟨by dsimp only [advanceTo]; omega, rfl, rfl, _, rfl, ?_⟩
    intro t ht
    rw [List.mem_singleton] at ht
    subst ht
    exact ⟨by simp, by simp⟩

theorem tokenizeVariableDeclaration_lexOk (st : LexState)
    (h : isVariableDeclaration st.source st.position = true) :
    ∃ st', tokenizeVariableDeclaration st = .ok st' ∧ LexOk st st' := by
  have hcond : varDeclEqPos st.source st.position < st.source.size ∧
      charAt st.source (varDeclEqPos st.source st.position) = '=' := by
    unfold isVariableDeclaration at h
    dsimp only at h
    rw [Bool.and_eq_true, decide_eq_true_eq] at h
    exact ⟨h.1, by simpa using h.2⟩
  unfold tokenizeVariableDeclaration
  dsimp only
  rw [if_pos hcond]
  have g1 := skipWhile_ge (fun c => pyIsAlnum c || c = '_') st.source
    (st.source.size + 1) (st.position + 1)
  have g2 := skipWhile_ge pyIsSpace st.source (st.source.size + 1)
    (skipWhile (fun c => pyIsAlnum c || c = '_') st.source
      (st.source.size + 1) (st.position + 1))
  have g3 := skipWhile_ge pyIsSpace st.source (st.source.size + 1)
    (varDeclEqPos st.source st.position + 1)
  have g4 := skipWhile_ge (fun c => c ≠ '\n' ∧ c ≠ '#') st.source (st.source.size + 1)
    (skipWhile pyIsSpace st.source (st.source.size + 1)
      (varDeclEqPos st.source st.position + 1))
  refine ⟨_, rfl, ?_, rfl, rfl, _, rfl, ?_⟩
  · show st.position < skipWhile (fun c => c ≠ '\n' ∧ c ≠ '#') st.source
      (st.source.size + 1) (skipWhile pyIsSpace st.source (st.source.size + 1)
        (varDeclEqPos st.source st.position + 1))
    unfold varDeclEqPos at g3 g4 ⊢
    omega
  · intro t ht
    rw [List.mem_singleton] at ht
    subst ht
    exact ⟨by simp, by simp⟩

theorem tokenizeVariableReference_lexOk (st : LexState) :
    LexOk st (tokenizeVariableReference st) := by
  have g1 := skipWhile_ge (fun c => pyIsAlnum c || c = '_') st.source
    (st.source.size + 1) (st.position + 1)
  refine ⟨?_, rfl, rfl, _, rfl, ?_⟩
  · show st.position < skipWhile (fun c => pyIsAlnum c || c = '_') st.source
      (st.source.size + 1) (st.position + 1)
    omega
  · intro t ht
    rw [List.mem_singleton] at ht
    subst ht
    exact ⟨by simp, by simp⟩

theorem tokenizeHeader_lexOk (st : LexState) (tt : TokenType)
    (h1 : st.position < st.source.size)
    (h2 : charAt st.source st.position ≠ ':')
    (h3 : charAt st.source st.position ≠ '\n')
    (h4 : tt ≠ .INDENT ∧ tt ≠ .DEDENT) :
    LexOk st (tokenizeHeader st tt) := by
  refine ⟨?_, rfl, rfl, _, rfl, ?_⟩
  · exact skipWhile_succ (fun c => c ≠ ':' ∧ c ≠ '\n') st.source (st.source.size + 1)
      st.position (by omega) h1 (by simp [h2, h3])
  · intro t ht
    rw [List.mem_singleton] at ht
    subst ht
    exact h4

theorem tokenizeHeaderColon_lexOk (st : LexState) (tt : TokenType)
    (h1 : st.position < st.source.size)
    (h2 : charAt st.source st.position ≠ ':')
    (h3 : charAt st.source st.position ≠ '\n')
    (h4 : tt ≠ .INDENT ∧ tt ≠ .DEDENT) :
    LexOk st (tokenizeHeaderColon st tt) := by
  have hs := skipWhile_succ (fun c => c ≠ ':' ∧ c ≠ '\n') st.source (st.source.size + 1)
    st.position (by omega) h1 (by simp [h2, h3])
  refine ⟨?_, rfl, rfl, _, rfl, ?_⟩
  · show st.position <
      (if skipWhile (fun c => c ≠ ':' ∧ c ≠ '\n') st.source (st.source.size + 1)
          st.position < st.source.size ∧
        charAt st.source (skipWhile (fun c => c ≠ ':' ∧ c ≠ '\n') st.source
          (st.source.size + 1) st.position) = ':'
        then skipWhile (fun c => c ≠ ':' ∧ c ≠ '\n') st.source (st.source.size + 1)
          st.position + 1
        else skipWhile (fun c => c ≠ ':' ∧ c ≠ '\n') st.source (st.source.size + 1)
          st.position)
    split <;> omega
  · intro t ht
    rw [List.mem_singleton] at ht
    subst ht
    exact h4

theorem tokenizeElementOrAttribute_lexOk (st : LexState)
    (h1 : st.position < st.source.size)
    (h2 : (pyIsAlnum (charAt st.source st.position)
        || charAt st.source st.position = '_'
        || charAt st.source st.position = '-') = true) :
    LexOk st (tokenizeElementOrAttribute st) := by
  have hs := skipWhile_succ
    (fun c => pyIsAlnum c || c = '_' || c = '-') st.source (st.source.size + 1)
    st.position (by omega) h1 h2
  have hsrc : (tokenizeElementOrAttribute st).source = st.source := by
    unfold tokenizeElementOrAttribute
    dsimp only [advanceTo]
    repeat' split
    all_goals rfl
  have hstk : (tokenizeElementOrAttribute st).indentStack = st.indentStack := by
    unfold tokenizeElementOrAttribute
    dsimp only [advanceTo]
    repeat' split
    all_goals rfl
  have hpos : st.position < (tokenizeElementOrAttribute st).position := by
    unfold tokenizeElementOrAttribute
    dsimp only [advanceTo]
    repeat' split
    all_goals first
      | exact Nat.lt_of_lt_of_le hs (skipWhile_ge _ _ _ _)
      | exact hs
  have htok : ∃ ts, (tokenizeElementOrAttribute st).tokens = st.tokens ++ ts
      ∧ ∀ t ∈ ts, t.type ≠ .INDENT ∧ t.type ≠ .DEDENT := by
    unfold tokenizeElementOrAttribute
    dsimp only [advanceTo]
    repeat' split
    all_goals first
      | exact ⟨_, List.append_assoc _ _ _,
          (by intro t ht
              rcases List.mem_append.mp ht with ht1 | ht1 <;>
                (rw [List.mem_singleton] at ht1; subst ht1; exact ⟨(by simp), (by simp)⟩))⟩
      | exact ⟨_, rfl,
          (by intro t ht
              rw [List.mem_singleton] at ht
              subst ht
              exact ⟨(by simp), (by simp)⟩)⟩
  exact ⟨hpos, hsrc, hstk, htok⟩

theorem elemPred_of_alpha (c : Char) (h : (pyIsAlpha c || c = '_') = true) :
    (pyIsAlnum c || c = '_' || c = '-') = true := by
  cases hpa : pyIsAlpha c <;> simp_all [pyIsAlnum]


/-- The character dispatch either raises one of the two string errors or
succeeds as a `LexOk` step (or is a no-op past the end of the source). -/
theorem lexDispatch_spec (st : LexState) :
    (∃ e, lexDispatch st = .error e ∧ e ≠ .fuelOut ∧ e ≠ .expectedEq)
    ∨ (lexDispatch st = .ok st ∧ st.source.size ≤ st.position)
    ∨ (∃ st', lexDispatch st = .ok st' ∧ LexOk st st') := by
  unfold lexDispatch
  dsimp only
  by_cases hge : st.position ≥ st.source.size
  · rw [if_pos hge]
    exact .inr (.inl ⟨rfl, hge⟩)
  rw [if_neg hge]
  have h1 : st.position < st.source.size := by omega
  by_cases hml : st.position + 2 < st.source.size
      ∧ matchAt st.source st.position ['"', '"', '"'] = true
  · rw [if_pos hml]
    rcases hms : tokenizeMultilineString st with e | stM
    · have he := tokenizeMultilineString_error st e hms
      subst he
      exact .inl ⟨_, rfl, (by decide), (by decide)⟩
    · exact .inr (.inr ⟨stM, rfl, tokenizeMultilineString_lexOk st stM hms⟩)
  rw [if_neg hml]
  by_cases hcomment : charAt st.source st.position = '#'
  · rw [if_pos hcomment]
    exact .inr (.inr ⟨_, rfl, tokenizeComment_lexOk st h1 hcomment⟩)
  rw [if_neg hcomment]
  by_cases hstr : charAt st.source st.position = '"' ∨ charAt st.source st.position = '\''
  · rw [if_pos hstr]
    rcases hms : tokenizeString st with e | stM
    · have he := tokenizeString_error st e hms
      subst he
      exact .inl ⟨_, rfl, (by decide), (by decide)⟩
    · exact .inr (.inr ⟨stM, rfl, tokenizeString_lexOk st stM hms⟩)
  rw [if_neg hstr]
  by_cases hdol : charAt st.source st.position = '$'
  · rw [if_pos hdol]
    by_cases hvd : isVariableDeclaration st.source st.position = true
    · rw [if_pos hvd]
      obtain ⟨st', hok, hlx⟩ := tokenizeVariableDeclaration_lexOk st hvd
      exact .inr (.inr ⟨st', hok, hlx⟩)
    · rw [if_neg hvd]
      exact .inr (.inr ⟨_, rfl, tokenizeVariableReference_lexOk st⟩)
  rw [if_neg hdol]
  by_cases hcol : charAt st.source st.position = ':'
  · rw [if_pos hcol]
    right
    right
    refine ⟨_, rfl, ?_⟩
    refine ⟨?_, rfl, rfl, _, rfl, ?_⟩
    · show st.position < st.position + 1
      omega
    · intro t ht
      rw [List.mem_singleton] at ht
      subst ht
      exact ⟨(by simp), (by simp)⟩
  rw [if_neg hcol]
  by_cases hat : charAt st.source st.position = '@'
  · rw [if_pos hat]
    have hne1 : charAt st.source st.position ≠ ':' := hcol
    have hne2 : charAt st.source st.position ≠ '\n' := by rw [hat]; decide
    by_cases hcd : isComponentDefinition st.source st.position = true
    · rw [if_pos hcd]
      exact .inr (.inr ⟨_, rfl, tokenizeHeaderColon_lexOk st .COMPONENT_DEF
        h1 hne1 hne2 ⟨(by decide), (by decide)⟩⟩)
    · rw [if_neg hcd]
      exact .inr (.inr ⟨_, rfl, tokenizeHeaderColon_lexOk st .COMPONENT_USE
        h1 hne1 hne2 ⟨(by decide), (by decide)⟩⟩)
  rw [if_neg hat]
  by_cases hnl : charAt st.source st.position = '\n'
  · rw [if_pos hnl]
    right
    right
    refine ⟨_, rfl, ?_⟩
    refine ⟨?_, rfl, rfl, _, rfl, ?_⟩
    · show st.position < st.position + 1
      omega
    · intro t ht
      rw [List.mem_singleton] at ht
      subst ht
      exact ⟨(by simp), (by simp)⟩
  rw [if_neg hnl]
  by_cases hfor : isForLoop st.source st.position = true
  · rw [if_pos hfor]
    exact .inr (.inr ⟨_, rfl, tokenizeHeader_lexOk st .FOR_LOOP
      h1 hcol hnl ⟨(by decide), (by decide)⟩⟩)
  rw [if_neg hfor]
  by_cases hif : isIfStatement st.source st.position = true
  · rw [if_pos hif]
    exact .inr (.inr ⟨_, rfl, tokenizeHeader_lexOk st .IF_STATEMENT
      h1 hcol hnl ⟨(by decide), (by decide)⟩⟩)
  rw [if_neg hif]
  by_cases hel : isElseStatement st.source st.position = true
  · rw [if_pos hel]
    exact .inr (.inr ⟨_, rfl, tokenizeHeaderColon_lexOk st .ELSE_STATEMENT
      h1 hcol hnl ⟨(by decide), (by decide)⟩⟩)
  rw [if_neg hel]
  by_cases halpha : (pyIsAlpha (charAt st.source st.position)
      || charAt st.source st.position = '_') = true
  · rw [if_pos halpha]
    exact .inr (.inr ⟨_, rfl, tokenizeElementOrAttribute_lexOk st
      h1 (elemPred_of_alpha _ halpha)⟩)
  rw [if_neg halpha]
  right
  right
  refine ⟨_, rfl, ?_⟩
  refine ⟨?_, rfl, rfl, [], (List.append_nil _).symm, ?_⟩
  · show st.position < st.position + 1
    omega
  · intro t ht
    cases ht

/-- One loop iteration below the end of the source: an error other than
the fuel artifact or the unreachable `expectedEq`, or strict progress
with the source kept and `Ilex` preserved. -/
theorem lexStep_spec (st : LexState) (h : st.position < st.source.size) :
    (∃ e, lexStep st = .error e ∧ e ≠ .fuelOut ∧ e ≠ .expectedEq)
    ∨ ∃ st', lexStep st = .ok st' ∧ st.position < st'.position
        ∧ st'.source = st.source ∧ (Ilex st → Ilex st') := by
  unfold lexStep
  by_cases hind : st.position = 0 ∨ charAt st.source (st.position - 1) = '\n'
  · rw [if_pos hind]
    rcases handleIndentation_spec st with ⟨st1, hok, hle, hsrc, hIl⟩ | herr
    · rw [hok, ebind_ok]
      rcases lexDispatch_spec st1 with ⟨e, he, he1, he2⟩ | ⟨hok2, hge⟩ | ⟨st2, hok2, hlo⟩
      · exact .inl ⟨e, he, he1, he2⟩
      · refine .inr ⟨st1, hok2, ?_, hsrc, hIl⟩
        rw [hsrc] at hge
        omega
      · refine .inr ⟨st2, hok2, (by have := hlo.1; omega), hlo.2.1.trans hsrc,
          fun hI => LexOk_Ilex st1 st2 hlo (hIl hI)⟩
    · rw [herr, ebind_err]
      exact .inl ⟨_, rfl, (by decide), (by decide)⟩
  · rw [if_neg hind, ebind_ok]
    rcases lexDispatch_spec st with ⟨e, he, he1, he2⟩ | ⟨_, hge⟩ | ⟨st2, hok2, hlo⟩
    · exact .inl ⟨e, he, he1, he2⟩
    · omega
    · exact .inr ⟨st2, hok2, hlo.1, hlo.2.1, LexOk_Ilex st st2 hlo⟩


/-- A successful run of the main loop keeps the source and preserves the
indentation invariant. -/
theorem lexLoop_ok_src_Ilex : ∀ (fuel : Nat) (st st' : LexState),
    lexLoop fuel st = .ok st' → st'.source = st.source ∧ (Ilex st → Ilex st') := by
  intro fuel
  induction fuel with
  | zero =>
    intro st st' h
    unfold lexLoop at h
    split at h
    · cases h
    · injection h with h2
      subst h2
      exact ⟨rfl, id⟩
  | succ fuel ih =>
    intro st st' h
    unfold lexLoop at h
    split at h
    · rename_i hpos
      rcases lexStep_spec st hpos with ⟨e, he, _, _⟩ | ⟨st1, he, _, hsrc, hIl⟩
      · rw [he] at h
        cases h
      · rw [he] at h
        dsimp only at h
        obtain ⟨hs2, hI2⟩ := ih st1 st' h
        exact ⟨hs2.trans hsrc, fun hI => hI2 (hIl hI)⟩
    · injection h with h2
      subst h2
      exact ⟨rfl, id⟩

/-- With enough fuel, the main loop only raises errors the Python lexer
can raise: never the fuel artifact and never the guarded `expectedEq`. -/
theorem lexLoop_error_kind : ∀ (fuel : Nat) (st : LexState) (e : LexError),
    st.source.size ≤ st.position + fuel →
    lexLoop fuel st = .error e → e ≠ .fuelOut ∧ e ≠ .expectedEq := by
  intro fuel
  induction fuel with
  | zero =>
    intro st e hf h
    unfold lexLoop at h
    split at h
    · rename_i hpos
      omega
    · cases h
  | succ fuel ih =>
    intro st e hf h
    unfold lexLoop at h
    split at h
    · rename_i hpos
      rcases lexStep_spec st hpos with ⟨e1, he, he1, he2⟩ | ⟨st1, he, hlt, hsrc, _⟩
      · rw [he] at h
        injection h with h2
        subst h2
        exact ⟨he1, he2⟩
      · rw [he] at h
        dsimp only at h
        refine ih st1 e ?_ h
        rw [hsrc]
        omega
    · cases h

/-- The end-of-input dedent loop over a well-formed stack emits exactly
one DEDENT per open level. -/
theorem emitFinalDedents_replicate (line col : Nat) :
    ∀ (l : List Nat), (∀ x ∈ l, 0 < x) →
    emitFinalDedents line col (l ++ [0])
      = List.replicate l.length ⟨.DEDENT, "", line, col⟩ := by
  intro l
  induction l with
  | nil =>
    intro _
    simp [emitFinalDedents]
  | cons x rest ih =>
    intro hp
    simp only [List.cons_append, emitFinalDedents]
    rw [if_pos (hp x (List.mem_cons_self _ _))]
    simp only [List.append_eq]
    rw [ih (fun y hy => hp y (List.mem_cons_of_mem _ hy))]
    simp [List.replicate]

theorem countTok_replicate_I (n line col : Nat) :
    countTok .INDENT (List.replicate n ⟨.DEDENT, "", line, col⟩) = 0 := by
  induction n with
  | zero => rfl
  | succ n ih => simp [List.replicate_succ, countTok, List.countP_cons]

theorem countTok_replicate_D (n line col : Nat) :
    countTok .DEDENT (List.replicate n ⟨.DEDENT, "", line, col⟩) = n := by
  induction n with
  | zero => rfl
  | succ n ih =>
    simp only [List.replicate_succ, countTok, List.countP_cons] at ih ⊢
    simpa using ih

/-- The two shape facts about every successful `tokenize` run: INDENT and
DEDENT tokens balance, and the list ends in the final dedent run followed
by the EOF token. -/
theorem tokenize_ok_shape (source : String) (ts : List Token)
    (h : tokenize source = .ok ts) :
    countTok .INDENT ts = countTok .DEDENT ts ∧
    ∃ pre n line col, ts = pre ++ List.replicate n ⟨.DEDENT, "", line, col⟩
      ++ [⟨.EOF, "", line, col⟩] := by
  unfold tokenize at h
  dsimp only at h
  split at h
  · cases h
  · rename_i stF heq
    injection h with h2
    subst h2
    have hI0 : Ilex ⟨source.data.toArray, 0, 1, 1, [0], []⟩ := by
      refine ⟨⟨[], rfl, (by intro x hx; cases hx)⟩, ?_⟩
      rfl
    obtain ⟨hsrc, hIl⟩ := lexLoop_ok_src_Ilex _ _ _ heq
    obtain ⟨⟨l, hl, hp⟩, hc⟩ := hIl hI0
    rw [hl, emitFinalDedents_replicate _ _ l hp]
    constructor
    · rw [countTok_append, countTok_append, countTok_append, countTok_append,
        countTok_replicate_I, countTok_replicate_D,
        countTok_single_ne _ _ (by simp), countTok_single_ne _ _ (by simp)]
      rw [hl] at hc
      simp only [List.length_append, List.length_cons, List.length_nil] at hc
      omega
    · exact ⟨stF.tokens, l.length, stF.line, stF.column, by rw [List.append_assoc]⟩

/-- Every error a full `tokenize` run raises is one of the three the
Python lexer can raise. -/
theorem tokenize_error_kind (source : String) (e : LexError)
    (h : tokenize source = .error e) :
    e = .unterminatedString ∨ e = .unterminatedMultiline ∨ e = .inconsistentIndent := by
  unfold tokenize at h
  dsimp only at h
  split at h
  · rename_i e2 heq
    injection h with h2
    subst h2
    have hk := lexLoop_error_kind (source.data.toArray.size + 1)
      ⟨source.data.toArray, 0, 1, 1, [0], []⟩ e2 (by dsimp only; omega) heq
    cases e2 with
    | unterminatedString => exact .inl rfl
    | unterminatedMultiline => exact .inr (.inl rfl)
    | inconsistentIndent => exact .inr (.inr rfl)
    | expectedEq => exact absurd rfl hk.2
    | fuelOut => exact absurd rfl hk.1
  · cases h



/-- **C5.** For every source text on which `tokenize` returns (does not
raise), the number of INDENT tokens in the returned token list equals the
number of DEDENT tokens, and the end-of-input DEDENTs for the still-open
indentation levels sit immediately before the final EOF token. -/
theorem C5_indent_dedent_balance (source : String) (ts : List Token)
    (h : tokenize source = .ok ts) :
    countTok .INDENT ts = countTok .DEDENT ts ∧
    ∃ pre n line col, ts = pre ++ List.replicate n ⟨.DEDENT, "", line, col⟩
      ++ [⟨.EOF, "", line, col⟩] :=
  tokenize_ok_shape source ts h

theorem C5_witness :
    countTok .INDENT ([⟨.ELEMENT, "div", 1, 1⟩, ⟨.COLON, ":", 1, 4⟩,
        ⟨.NEWLINE, "\n", 1, 5⟩, ⟨.INDENT, "  ", 2, 6⟩, ⟨.STRING, "\"x\"", 2, 8⟩,
        ⟨.NEWLINE, "\n", 2, 6⟩, ⟨.DEDENT, "", 3, 1⟩, ⟨.EOF, "", 3, 1⟩] : List Token)
      = countTok .DEDENT [⟨.ELEMENT, "div", 1, 1⟩, ⟨.COLON, ":", 1, 4⟩,
        ⟨.NEWLINE, "\n", 1, 5⟩, ⟨.INDENT, "  ", 2, 6⟩, ⟨.STRING, "\"x\"", 2, 8⟩,
        ⟨.NEWLINE, "\n", 2, 6⟩, ⟨.DEDENT, "", 3, 1⟩, ⟨.EOF, "", 3, 1⟩] ∧
    ∃ pre n line col,
      ([⟨.ELEMENT, "div", 1, 1⟩, ⟨.COLON, ":", 1, 4⟩,
        ⟨.NEWLINE, "\n", 1, 5⟩, ⟨.INDENT, "  ", 2, 6⟩, ⟨.STRING, "\"x\"", 2, 8⟩,
        ⟨.NEWLINE, "\n", 2, 6⟩, ⟨.DEDENT, "", 3, 1⟩, ⟨.EOF, "", 3, 1⟩] : List Token)
        = pre ++ List.replicate n ⟨.DEDENT, "", line, col⟩ ++ [⟨.EOF, "", line, col⟩] :=
  C5_indent_dedent_balance "div:\n  \"x\"\n" _ (by decide!)

/-! ## Parser totality theorems (claim C3) -/

theorem pbind_ok {α β : Type} (a : α) (f : α → Except PErr β) :
    (Except.ok a >>= f) = f a := rfl

theorem peek_ok (st : ParserState) (h : PInv st) :
    peek st = .ok (st.tokens.getD st.position dfltToken) := by
  unfold peek
  rw [if_pos h.1]

theorem isAtEnd_false (st : ParserState) (hend : isAtEnd st = false) :
    st.position < st.tokens.size
      ∧ (st.tokens.getD st.position dfltToken).type ≠ .EOF := by
  unfold isAtEnd at hend
  rw [Bool.or_eq_false_iff, decide_eq_false_iff_not] at hend
  exact ⟨by omega, by simpa using hend.2⟩

theorem pAdvance_ok (st : ParserState) (h : PInv st) :
    ∃ tok st', pAdvance st = .ok (tok, st') ∧ PInv st' ∧ st'.tokens = st.tokens
      ∧ st.position ≤ st'.position ∧ st'.position ≤ st.position + 1
      ∧ (isAtEnd st = false → st'.position = st.position + 1) := by
  have h1 := h.1
  unfold pAdvance
  by_cases hend : isAtEnd st = true
  · rw [if_neg (by simp [hend])]
    by_cases h0 : st.position = 0
    · rw [if_pos h0]
      rw [if_pos (by omega : st.tokens.size > 0)]
      exact ⟨_, st, rfl, h, rfl, Nat.le_refl _, by omega,
        (by intro hf; rw [hend] at hf; cases hf)⟩
    · rw [if_neg h0]
      rw [if_pos (by omega : st.position - 1 < st.tokens.size)]
      exact ⟨_, st, rfl, h, rfl, Nat.le_refl _, by omega,
        (by intro hf; rw [hend] at hf; cases hf)⟩
  · rw [if_pos (by simpa using hend)]
    obtain ⟨hlt, hne⟩ := isAtEnd_false st (by simpa using hend)
    have hpos : st.position + 1 < st.tokens.size := by
      rcases Nat.lt_or_ge (st.position + 1) st.tokens.size with hc | hc

      · exact hc
      · exfalso
        have : st.position = st.tokens.size - 1 := by omega
        rw [this] at hne
        exact hne h.2
    exact ⟨_, _, rfl, ⟨hpos, h.2⟩, rfl, Nat.le_succ _, Nat.le_refl _, fun _ => rfl⟩

theorem consume_ok (tt : TokenType) (st : ParserState) (h : PInv st) :
    ∃ tok st', consume tt st = .ok (tok, st') ∧ PInv st' ∧ st'.tokens = st.tokens
      ∧ st.position ≤ st'.position ∧ st'.position ≤ st.position + 1
      ∧ (check tt st = true → st'.position = st.position + 1) := by
  unfold consume
  by_cases hc : check tt st = true
  · rw [if_pos hc]
    have hend : isAtEnd st = false := by
      unfold check at hc
      by_cases he : isAtEnd st = true
      · rw [if_pos he] at hc
        cases hc
      · simpa using he
    obtain ⟨tok, st', he, hI, htk, h1, h2, h3⟩ := pAdvance_ok st h
    exact ⟨tok, st', he, hI, htk, h1, h2, fun _ => h3 hend⟩
  · rw [if_neg hc]
    rw [peek_ok st h]
    exact ⟨_, st, rfl, h, rfl, Nat.le_refl _, by omega,
      (by intro hf; exact absurd hf hc)⟩

theorem parseVariableDeclaration_ok (st : ParserState) (h : PInv st)
    (hc : check .VARIABLE_DECL st = true) :
    PStepS st (parseVariableDeclaration st) := by
  unfold parseVariableDeclaration
  obtain ⟨tok, st1, he1, hI1, htk1, _, _, hadv⟩ := consume_ok .VARIABLE_DECL st h
  rw [he1, pbind_ok]
  dsimp only
  have hlt1 : st.position < st1.position := by rw [hadv hc]; omega
  rcases hm : matchVarDecl tok.value with _ | ⟨name, rawValue⟩
  · exact ⟨_, st1, rfl, hI1, htk1, hlt1⟩
  · exact ⟨_, _, rfl, hI1, htk1, hlt1⟩

theorem parseMultilineStringStmt_ok (st : ParserState) (h : PInv st)
    (hc : check .MULTILINE_STRING st = true) :
    PStepS st (parseMultilineStringStmt st) := by
  unfold parseMultilineStringStmt
  obtain ⟨tok, st1, he1, hI1, htk1, _, _, hadv⟩ := consume_ok .MULTILINE_STRING st h
  rw [he1, pbind_ok]
  exact ⟨_, st1, rfl, hI1, htk1, by rw [hadv hc]; omega⟩

theorem parseComponentUseStmt_ok (st : ParserState) (h : PInv st)
    (hc : check .COMPONENT_USE st = true) :
    PStepS st (parseComponentUseStmt st) := by
  unfold parseComponentUseStmt
  obtain ⟨tok, st1, he1, hI1, htk1, _, _, hadv⟩ := consume_ok .COMPONENT_USE st h
  rw [he1, pbind_ok]
  dsimp only
  have hlt1 : st.position < st1.position := by rw [hadv hc]; omega
  rcases hm : matchComponentUse tok.value with _ | ⟨name, argsStr⟩
  · exact ⟨_, st1, rfl, hI1, htk1, hlt1⟩
  · exact ⟨_, st1, rfl, hI1, htk1, hlt1⟩

theorem parseContentF_ok (st : ParserState) (h : PInv st) :
    PStep st (parseContentF st) := by
  unfold parseContentF
  by_cases h1 : check .STRING st = true
  · rw [if_pos h1]
    obtain ⟨tok, st1, he1, hI1, htk1, hle1, _, _⟩ := consume_ok .STRING st h
    rw [he1, pbind_ok]
    exact ⟨_, st1, rfl, hI1, htk1, hle1⟩
  rw [if_neg h1]
  by_cases h2 : check .MULTILINE_STRING st = true
  · rw [if_pos h2]
    obtain ⟨tok, st1, he1, hI1, htk1, hle1, _, _⟩ := consume_ok .MULTILINE_STRING st h
    rw [he1, pbind_ok]
    exact ⟨_, st1, rfl, hI1, htk1, hle1⟩
  rw [if_neg h2]
  by_cases h3 : check .VARIABLE_REF st = true
  · rw [if_pos h3]
    obtain ⟨tok, st1, he1, hI1, htk1, hle1, _, _⟩ := consume_ok .VARIABLE_REF st h
    rw [he1, pbind_ok]
    dsimp only
    rcases hm : dictGet st1.vars tok.value with _ | v
    · exact ⟨_, st1, rfl, hI1, htk1, hle1⟩
    · exact ⟨_, st1, rfl, hI1, htk1, hle1⟩
  rw [if_neg h3]
  by_cases h4 : check .CONTENT st = true
  · rw [if_pos h4]
    obtain ⟨tok, st1, he1, hI1, htk1, hle1, _, _⟩ := consume_ok .CONTENT st h
    rw [he1, pbind_ok]
    exact ⟨_, st1, rfl, hI1, htk1, hle1⟩
  rw [if_neg h4]
  exact ⟨_, st, rfl, h, rfl, Nat.le_refl _⟩

theorem parseElementRest_ok
    (pblock : ParserState → Except PErr (List ASTNode × ParserState))
    (elementName : String) (attributes : List (String × AttrVal))
    (st : ParserState) (h : PInv st)
    (hpb : ∀ st2, PInv st2 → st2.tokens = st.tokens → st.position ≤ st2.position →
      PStep st2 (pblock st2)) :
    PStep st (parseElementRest pblock elementName attributes st) := by
  unfold parseElementRest
  obtain ⟨ctok, st1, he1, hI1, htk1, hle1, _, _⟩ := consume_ok .COLON st h
  rw [he1, pbind_ok]
  dsimp only
  by_cases hcont : (check .STRING st1 = true ∨ check .VARIABLE_REF st1 = true
      ∨ check .CONTENT st1 = true ∨ check .MULTILINE_STRING st1 = true)
  · rw [if_pos hcont]
    obtain ⟨content, st2, he2, hI2, htk2, hle2⟩ := parseContentF_ok st1 hI1
    rw [he2, pbind_ok]
    exact ⟨_, st2, rfl, hI2, htk2.trans htk1, by omega⟩
  rw [if_neg hcont]
  by_cases hnl : check .NEWLINE st1 = true
  · rw [if_pos hnl]
    obtain ⟨ntok, st2, he2, hI2, htk2, hle2, _, _⟩ := consume_ok .NEWLINE st1 hI1
    rw [he2, pbind_ok]
    dsimp only
    by_cases hind : check .INDENT st2 = true
    · rw [if_pos hind]
      obtain ⟨itok, st3, he3, hI3, htk3, hle3, _, _⟩ := consume_ok .INDENT st2 hI2
      rw [he3, pbind_ok]
      dsimp only
      obtain ⟨children, st4, he4, hI4, htk4, hle4⟩ :=
        hpb st3 hI3 (htk3.trans (htk2.trans htk1)) (by omega)
      rw [he4, pbind_ok]
      dsimp only
      obtain ⟨dtok, st5, he5, hI5, htk5, hle5, _, _⟩ := consume_ok .DEDENT st4 hI4
      rw [he5, pbind_ok]
      exact ⟨_, st5, rfl, hI5,
        htk5.trans (htk4.trans (htk3.trans (htk2.trans htk1))), by omega⟩
    · rw [if_neg hind]
      exact ⟨_, st2, rfl, hI2, htk2.trans htk1, by omega⟩
  · rw [if_neg hnl]
    exact ⟨_, st1, rfl, hI1, htk1, hle1⟩

theorem parseElementWith_ok
    (pblock : ParserState → Except PErr (List ASTNode × ParserState))
    (st : ParserState) (h : PInv st) (hc : check .ELEMENT st = true)
    (hpb : ∀ st2, PInv st2 → st2.tokens = st.tokens → st.position < st2.position →
      PStep st2 (pblock st2)) :
    PStepS st (parseElementWith pblock st) := by
  unfold parseElementWith
  obtain ⟨etok, st1, he1, hI1, htk1, _, _, hadv⟩ := consume_ok .ELEMENT st h
  rw [he1, pbind_ok]
  dsimp only
  have hlt1 : st.position < st1.position := by rw [hadv hc]; omega
  by_cases ha : check .ATTRIBUTE st1 = true
  · rw [if_pos ha]
    obtain ⟨atok, st2, he2, hI2, htk2, hle2, _, _⟩ := consume_ok .ATTRIBUTE st1 hI1
    rw [he2, pbind_ok]
    dsimp only
    obtain ⟨node, st3, he3, hI3, htk3, hle3⟩ :=
      parseElementRest_ok pblock etok.value (parseAttributes st2.vars atok.value)
        st2 hI2
        (fun stx hIx htkx hlex => hpb stx hIx (htkx.trans (htk2.trans htk1))
          (by omega))
    rw [he3]
    exact ⟨node, st3, rfl, hI3, htk3.trans (htk2.trans htk1), by omega⟩
  · rw [if_neg ha]
    obtain ⟨node, st3, he3, hI3, htk3, hle3⟩ :=
      parseElementRest_ok pblock etok.value [] st1 hI1
        (fun stx hIx htkx hlex => hpb stx hIx (htkx.trans htk1) (by omega))
    rw [he3]
    exact ⟨node, st3, rfl, hI3, htk3.trans htk1, by omega⟩

theorem parseForLoopWith_ok
    (pblock : ParserState → Except PErr (List ASTNode × ParserState))
    (st : ParserState) (h : PInv st) (hc : check .FOR_LOOP st = true)
    (hpb : ∀ st2, PInv st2 → st2.tokens = st.tokens → st.position < st2.position →
      PStep st2 (pblock st2)) :
    PStepS st (parseForLoopWith pblock st) := by
  unfold parseForLoopWith
  obtain ⟨ftok, st1, he1, hI1, htk1, _, _, hadv⟩ := consume_ok .FOR_LOOP st h
  rw [he1, pbind_ok]
  dsimp only
  have hlt1 : st.position < st1.position := by rw [hadv hc]; omega
  rcases hm : matchForHeader ftok.value with _ | ⟨iterator, iterable⟩
  · exact ⟨_, st1, rfl, hI1, htk1, hlt1⟩
  · dsimp only
    obtain ⟨ctok, st2, he2, hI2, htk2, hle2, _, _⟩ := consume_ok .COLON st1 hI1
    rw [he2, pbind_ok]
    dsimp only
    obtain ⟨ntok, st3, he3, hI3, htk3, hle3, _, _⟩ := consume_ok .NEWLINE st2 hI2
    rw [he3, pbind_ok]
    dsimp only
    obtain ⟨itok, st4, he4, hI4, htk4, hle4, _, _⟩ := consume_ok .INDENT st3 hI3
    rw [he4, pbind_ok]
    dsimp only
    obtain ⟨body, st5, he5, hI5, htk5, hle5⟩ :=
      hpb st4 hI4 (htk4.trans (htk3.trans (htk2.trans htk1))) (by omega)
    rw [he5, pbind_ok]
    dsimp only
    obtain ⟨dtok, st6, he6, hI6, htk6, hle6, _, _⟩ := consume_ok .DEDENT st5 hI5
    rw [he6, pbind_ok]
    exact ⟨_, st6, rfl, hI6,
      htk6.trans (htk5.trans (htk4.trans (htk3.trans (htk2.trans htk1)))), by omega⟩

theorem parseConditionalWith_ok
    (pblock : ParserState → Except PErr (List ASTNode × ParserState))
    (st : ParserState) (h : PInv st) (hc : check .IF_STATEMENT st = true)
    (hpb : ∀ st2, PInv st2 → st2.tokens = st.tokens → st.position < st2.position →
      PStep st2 (pblock st2)) :
    PStepS st (parseConditionalWith pblock st) := by
  unfold parseConditionalWith
  obtain ⟨itok, st1, he1, hI1, htk1, _, _, hadv⟩ := consume_ok .IF_STATEMENT st h
  rw [he1, pbind_ok]
  dsimp only
  have hlt1 : st.position < st1.position := by rw [hadv hc]; omega
  rcases hm : matchIfHeader itok.value with _ | condition
  · exact ⟨_, st1, rfl, hI1, htk1, hlt1⟩
  · dsimp only
    obtain ⟨ctok, st2, he2, hI2, htk2, hle2, _, _⟩ := consume_ok .COLON st1 hI1
    rw [he2, pbind_ok]
    dsimp only
    obtain ⟨ntok, st3, he3, hI3, htk3, hle3, _, _⟩ := consume_ok .NEWLINE st2 hI2
    rw [he3, pbind_ok]
    dsimp only
    obtain ⟨xtok, st4, he4, hI4, htk4, hle4, _, _⟩ := consume_ok .INDENT st3 hI3
    rw [he4, pbind_ok]
    dsimp only
    obtain ⟨ifBody, st5, he5, hI5, htk5, hle5⟩ :=
      hpb st4 hI4 (htk4.trans (htk3.trans (htk2.trans htk1))) (by omega)
    rw [he5, pbind_ok]
    dsimp only
    obtain ⟨dtok, st6, he6, hI6, htk6, hle6, _, _⟩ := consume_ok .DEDENT st5 hI5
    rw [he6, pbind_ok]
    dsimp only
    have htk6' : st6.tokens = st.tokens :=
      htk6.trans (htk5.trans (htk4.trans (htk3.trans (htk2.trans htk1))))
    by_cases hel : check .ELSE_STATEMENT st6 = true
    · rw [if_pos hel]
      obtain ⟨etok, st7, he7, hI7, htk7, hle7, _, _⟩ := consume_ok .ELSE_STATEMENT st6 hI6
      rw [he7, pbind_ok]
      dsimp only
      obtain ⟨ntok2, st8, he8, hI8, htk8, hle8, _, _⟩ := consume_ok .NEWLINE st7 hI7
      rw [he8, pbind_ok]
      dsimp only
      obtain ⟨itok2, st9, he9, hI9, htk9, hle9, _, _⟩ := consume_ok .INDENT st8 hI8
      rw [he9, pbind_ok]
      dsimp only
      obtain ⟨elseBody, st10, he10, hI10, htk10, hle10⟩ :=
        hpb st9 hI9 (htk9.trans (htk8.trans (htk7.trans htk6'))) (by omega)
      rw [he10, pbind_ok]
      dsimp only
      obtain ⟨dtok2, st11, he11, hI11, htk11, hle11, _, _⟩ := consume_ok .DEDENT st10 hI10
      rw [he11, pbind_ok]
      exact ⟨_, st11, rfl, hI11,
        htk11.trans (htk10.trans (htk9.trans (htk8.trans (htk7.trans htk6')))), by omega⟩
    · rw [if_neg hel]
      exact ⟨_, st6, rfl, hI6, htk6', by omega⟩

theorem parseComponentDefRest_ok
    (pblock : ParserState → Except PErr (List ASTNode × ParserState))
    (name : String) (parameters : List String)
    (defaultValues : List (String × String))
    (st : ParserState) (h : PInv st)
    (hpb : ∀ st2, PInv st2 → st2.tokens = st.tokens → st.position ≤ st2.position →
      PStep st2 (pblock st2)) :
    PStep st (parseComponentDefRest pblock name parameters defaultValues st) := by
  unfold parseComponentDefRest
  obtain ⟨ntok, st1, he1, hI1, htk1, hle1, _, _⟩ := consume_ok .NEWLINE st h
  rw [he1, pbind_ok]
  dsimp only
  obtain ⟨itok, st2, he2, hI2, htk2, hle2, _, _⟩ := consume_ok .INDENT st1 hI1
  rw [he2, pbind_ok]
  dsimp only
  obtain ⟨body, st3, he3, hI3, htk3, hle3⟩ :=
    hpb st2 hI2 (htk2.trans htk1) (by omega)
  rw [he3, pbind_ok]
  dsimp only
  obtain ⟨dtok, st4, he4, hI4, htk4, hle4, _, _⟩ := consume_ok .DEDENT st3 hI3
  rw [he4, pbind_ok]
  exact ⟨_, _, rfl, hI4, htk4.trans (htk3.trans (htk2.trans htk1)),
    (show st.position ≤ st4.position by omega)⟩

theorem parseComponentDefinitionWith_ok
    (pblock : ParserState → Except PErr (List ASTNode × ParserState))
    (st : ParserState) (h : PInv st) (hc : check .COMPONENT_DEF st = true)
    (hpb : ∀ st2, PInv st2 → st2.tokens = st.tokens → st.position < st2.position →
      PStep st2 (pblock st2)) :
    PStepS st (parseComponentDefinitionWith pblock st) := by
  unfold parseComponentDefinitionWith
  obtain ⟨ctok, st1, he1, hI1, htk1, _, _, hadv⟩ := consume_ok .COMPONENT_DEF st h
  rw [he1, pbind_ok]
  dsimp only
  have hlt1 : st.position < st1.position := by rw [hadv hc]; omega
  rcases hm : matchComponentDef ctok.value with _ | ⟨name, paramsStr⟩
  · exact ⟨_, st1, rfl, hI1, htk1, hlt1⟩
  · dsimp only
    by_cases hcol : ¬ pyEndsWith ctok.value ":" = true
    · rw [if_pos hcol]
      obtain ⟨tok2, st2, he2, hI2, htk2, hle2, _, _⟩ := consume_ok .COLON st1 hI1
      rw [he2, pbind_ok]
      dsimp only
      obtain ⟨node, st3, he3, hI3, htk3, hle3⟩ :=
        parseComponentDefRest_ok pblock name
          (parseParams paramsStr).1 (parseParams paramsStr).2 st2 hI2
          (fun stx hIx htkx hlex => hpb stx hIx (htkx.trans (htk2.trans htk1))
            (by omega))
      rw [he3]
      exact ⟨node, st3, rfl, hI3, htk3.trans (htk2.trans htk1), by omega⟩
    · rw [if_neg hcol]
      obtain ⟨node, st3, he3, hI3, htk3, hle3⟩ :=
        parseComponentDefRest_ok pblock name
          (parseParams paramsStr).1 (parseParams paramsStr).2 st1 hI1
          (fun stx hIx htkx hlex => hpb stx hIx (htkx.trans htk1) (by omega))
      rw [he3]
      exact ⟨node, st3, rfl, hI3, htk3.trans htk1, by omega⟩

/-- Totality of the three parsing loops on invariant states, by strong
induction on the fuel: a statement (on a non-end state) always succeeds
and strictly advances; a block or top-level run always succeeds. -/
theorem parseRun_total (fuel : Nat) :
    (∀ st, PInv st → isAtEnd st = false →
      2 * (st.tokens.size - st.position) ≤ fuel →
      PStepS st (parseRun fuel .statement st)) ∧
    (∀ st, PInv st → 2 * (st.tokens.size - st.position) + 1 ≤ fuel →
      PStep st (parseRun fuel .block st)) ∧
    (∀ st, PInv st → 2 * (st.tokens.size - st.position) + 1 ≤ fuel →
      PStep st (parseRun fuel .topLevel st)) := by
  induction fuel with
  | zero =>
    refine ⟨?_, ?_, ?_⟩
    · intro st hI hend hf
      have h1 := hI.1
      exact absurd hf (by omega)
    · intro st hI hf
      exact absurd hf (by omega)
    · intro st hI hf
      exact absurd hf (by omega)
  | succ fuel ih =>
    obtain ⟨ihS, ihB, ihT⟩ := ih
    refine ⟨?_, ?_, ?_⟩
    · -- statement
      intro st hI hend hf
      have h1 := hI.1
      unfold parseRun
      rw [peek_ok st hI, pbind_ok]
      dsimp only
      have hpb : ∀ st2, PInv st2 → st2.tokens = st.tokens →
          st.position < st2.position →
          PStep st2 (match parseRun fuel .block st2 with
            | .ok (v, st3) =>
              (.ok (blockVal v, st3) : Except PErr (List ASTNode × ParserState))
            | .error e => .error e) := by
        intro st2 hI2 htk2 hlt2
        obtain ⟨v, st3, he3, hI3, htk3, hle3⟩ := ihB st2 hI2 (by rw [htk2]; omega)
        rw [he3]
        exact ⟨blockVal v, st3, rfl, hI3, htk3, hle3⟩
      cases htt : (st.tokens.getD st.position dfltToken).type with
      | VARIABLE_DECL =>
        have hc : check .VARIABLE_DECL st = true := by
          unfold check
          rw [hend]
          simpa using htt
        obtain ⟨node, st1, he1, hI1, htk1, hlt1⟩ := parseVariableDeclaration_ok st hI hc
        rw [he1, pbind_ok]
        exact ⟨_, st1, rfl, hI1, htk1, hlt1⟩
      | COMPONENT_DEF =>
        have hc : check .COMPONENT_DEF st = true := by
          unfold check
          rw [hend]
          simpa using htt
        obtain ⟨node, st1, he1, hI1, htk1, hlt1⟩ :=
          parseComponentDefinitionWith_ok _ st hI hc hpb
        rw [he1, pbind_ok]
        exact ⟨_, st1, rfl, hI1, htk1, hlt1⟩
      | ELEMENT =>
        have hc : check .ELEMENT st = true := by
          unfold check
          rw [hend]
          simpa using htt
        obtain ⟨node, st1, he1, hI1, htk1, hlt1⟩ := parseElementWith_ok _ st hI hc hpb
        rw [he1, pbind_ok]
        exact ⟨_, st1, rfl, hI1, htk1, hlt1⟩
      | FOR_LOOP =>
        have hc : check .FOR_LOOP st = true := by
          unfold check
          rw [hend]
          simpa using htt
        obtain ⟨node, st1, he1, hI1, htk1, hlt1⟩ := parseForLoopWith_ok _ st hI hc hpb
        rw [he1, pbind_ok]
        exact ⟨_, st1, rfl, hI1, htk1, hlt1⟩
      | IF_STATEMENT =>
        have hc : check .IF_STATEMENT st = true := by
          unfold check
          rw [hend]
          simpa using htt
        obtain ⟨node, st1, he1, hI1, htk1, hlt1⟩ := parseConditionalWith_ok _ st hI hc hpb
        rw [he1, pbind_ok]
        exact ⟨_, st1, rfl, hI1, htk1, hlt1⟩
      | COMPONENT_USE =>
        have hc : check .COMPONENT_USE st = true := by
          unfold check
          rw [hend]
          simpa using htt
        obtain ⟨node, st1, he1, hI1, htk1, hlt1⟩ := parseComponentUseStmt_ok st hI hc
        rw [he1, pbind_ok]
        exact ⟨_, st1, rfl, hI1, htk1, hlt1⟩
      | NEWLINE =>
        obtain ⟨tok2, st1, he1, hI1, htk1, _, _, hadv⟩ := pAdvance_ok st hI
        rw [he1, pbind_ok]
        exact ⟨_, st1, rfl, hI1, htk1, by rw [hadv hend]; omega⟩
      | COMMENT =>
        obtain ⟨tok2, st1, he1, hI1, htk1, _, _, hadv⟩ := pAdvance_ok st hI
        rw [he1, pbind_ok]
        exact ⟨_, st1, rfl, hI1, htk1, by rw [hadv hend]; omega⟩
      | MULTILINE_STRING =>
        have hc : check .MULTILINE_STRING st = true := by
          unfold check
          rw [hend]
          simpa using htt
        obtain ⟨node, st1, he1, hI1, htk1, hlt1⟩ := parseMultilineStringStmt_ok st hI hc
        rw [he1, pbind_ok]
        exact ⟨_, st1, rfl, hI1, htk1, hlt1⟩
      | ATTRIBUTE =>
        obtain ⟨tok2, st1, he1, hI1, htk1, _, _, hadv⟩ := pAdvance_ok st hI
        rw [he1, pbind_ok]
        exact ⟨_, st1, rfl, hI1, htk1, by rw [hadv hend]; omega⟩
      | CONTENT =>
        obtain ⟨tok2, st1, he1, hI1, htk1, _, _, hadv⟩ := pAdvance_ok st hI
        rw [he1, pbind_ok]
        exact ⟨_, st1, rfl, hI1, htk1, by rw [hadv hend]; omega⟩
      | VARIABLE_REF =>
        obtain ⟨tok2, st1, he1, hI1, htk1, _, _, hadv⟩ := pAdvance_ok st hI
        rw [he1, pbind_ok]
        exact ⟨_, st1, rfl, hI1, htk1, by rw [hadv hend]; omega⟩
      | COLON =>
        obtain ⟨tok2, st1, he1, hI1, htk1, _, _, hadv⟩ := pAdvance_ok st hI
        rw [he1, pbind_ok]
        exact ⟨_, st1, rfl, hI1, htk1, by rw [hadv hend]; omega⟩
      | STRING =>
        obtain ⟨tok2, st1, he1, hI1, htk1, _, _, hadv⟩ := pAdvance_ok st hI
        rw [he1, pbind_ok]
        exact ⟨_, st1, rfl, hI1, htk1, by rw [hadv hend]; omega⟩
      | ELSE_STATEMENT =>
        obtain ⟨tok2, st1, he1, hI1, htk1, _, _, hadv⟩ := pAdvance_ok st hI
        rw [he1, pbind_ok]
        exact ⟨_, st1, rfl, hI1, htk1, by rw [hadv hend]; omega⟩
      | INDENT =>
        obtain ⟨tok2, st1, he1, hI1, htk1, _, _, hadv⟩ := pAdvance_ok st hI
        rw [he1, pbind_ok]
        exact ⟨_, st1, rfl, hI1, htk1, by rw [hadv hend]; omega⟩
      | DEDENT =>
        obtain ⟨tok2, st1, he1, hI1, htk1, _, _, hadv⟩ := pAdvance_ok st hI
        rw [he1, pbind_ok]
        exact ⟨_, st1, rfl, hI1, htk1, by rw [hadv hend]; omega⟩
      | EOF =>
        obtain ⟨tok2, st1, he1, hI1, htk1, _, _, hadv⟩ := pAdvance_ok st hI
        rw [he1, pbind_ok]
        exact ⟨_, st1, rfl, hI1, htk1, by rw [hadv hend]; omega⟩
    · -- block
      intro st hI hf
      have h1 := hI.1
      unfold parseRun
      by_cases hg : (¬ isAtEnd st = true ∧ ¬ check .DEDENT st = true)
      · rw [if_pos hg]
        have hend : isAtEnd st = false := by
          rcases hg with ⟨hg1, _⟩
          simpa using hg1
        obtain ⟨v, st1, he1, hI1, htk1, hlt1⟩ := ihS st hI hend (by omega)
        rw [he1]
        dsimp only
        obtain ⟨v2, st2, he2, hI2, htk2, hle2⟩ := ihB st1 hI1 (by rw [htk1]; omega)
        rw [he2]
        dsimp only
        exact ⟨_, st2, rfl, hI2, htk2.trans htk1, by omega⟩
      · rw [if_neg hg]
        exact ⟨_, st, rfl, hI, rfl, Nat.le_refl _⟩
    · -- top level
      intro st hI hf
      have h1 := hI.1
      unfold parseRun
      by_cases hg : ¬ isAtEnd st = true
      · rw [if_pos hg]
        rw [peek_ok st hI]
        dsimp only
        have hend : isAtEnd st = false := by simpa using hg
        by_cases heof : (st.tokens.getD st.position dfltToken).type = .EOF
        · rw [if_pos heof]
          exact ⟨_, st, rfl, hI, rfl, Nat.le_refl _⟩
        · rw [if_neg heof]
          obtain ⟨v, st1, he1, hI1, htk1, hlt1⟩ := ihS st hI hend (by omega)
          rw [he1]
          dsimp only
          obtain ⟨v2, st2, he2, hI2, htk2, hle2⟩ := ihT st1 hI1 (by rw [htk1]; omega)
          rw [he2]
          dsimp only
          exact ⟨_, st2, rfl, hI2, htk2.trans htk1, by omega⟩
      · rw [if_neg hg]
        exact ⟨_, st, rfl, hI, rfl, Nat.le_refl _⟩

/-- `Parser.parse` never raises on a token list whose last token is EOF
(which every lexer output is). -/
theorem parseDocument_total (ts : List Token) (pre : List Token) (tk : Token)
    (hts : ts = pre ++ [tk]) (htk : tk.type = .EOF) :
    ∃ r, parseDocument ts = .ok r := by
  unfold parseDocument
  dsimp only
  have hI0 : PInv ⟨ts.toArray, 0, [], []⟩ := by
    constructor
    · show 0 < ts.toArray.size
      subst hts
      simp
    · show (ts.toArray.getD (ts.toArray.size - 1) dfltToken).type = .EOF
      subst hts
      rw [show ((pre ++ [tk]).toArray.getD ((pre ++ [tk]).toArray.size - 1) dfltToken)
          = tk from by simp [Array.getD]]
      exact htk
  obtain ⟨v, stF, he, _, _, _⟩ := (parseRun_total (2 * ts.length + 2)).2.2
    ⟨ts.toArray, 0, [], []⟩ hI0
    (by
      have hsz : ts.toArray.size = ts.length := by simp
      show 2 * (ts.toArray.size - 0) + 1 ≤ 2 * ts.length + 2
      omega)
  rw [he]
  exact ⟨_, rfl⟩

/-- **C3.** Compilation aborts with a raised error only for an
unterminated string, an unterminated multiline string, or a dedent to a
width absent from the indentation stack — all three genuinely reachable —
while the guarded `expectedEq` raise of the variable-declaration
tokenizer (and the fuel artifact of the embedding) never fire, and the
parser returns normally on every token list the lexer can produce. -/
theorem C3_fatal_errors :
    (∀ source e, tokenize source = .error e →
      e = .unterminatedString ∨ e = .unterminatedMultiline ∨ e = .inconsistentIndent) ∧
    tokenize "\"ab" = .error .unterminatedString ∧
    tokenize "\"\"\"ab" = .error .unterminatedMultiline ∧
    tokenize "a:\n      b:\n  c\n" = .error .inconsistentIndent ∧
    (∀ source ts, tokenize source = .ok ts → ∃ r, parseDocument ts = .ok r) := by
  refine ⟨tokenize_error_kind, by decide!, by decide!, by decide!, ?_⟩
  intro source ts h
  obtain ⟨_, pre, n, line, col, hshape⟩ := tokenize_ok_shape source ts h
  exact parseDocument_total ts (pre ++ List.replicate n ⟨.DEDENT, "", line, col⟩)
    ⟨.EOF, "", line, col⟩ hshape rfl

theorem C3_witness :
    ∃ r, parseDocument [⟨.ELEMENT, "div", 1, 1⟩, ⟨.COLON, ":", 1, 4⟩,
      ⟨.NEWLINE, "\n", 1, 5⟩, ⟨.EOF, "", 2, 1⟩] = .ok r :=
  C3_fatal_errors.2.2.2.2 "div:\n" _ (by decide!)
